import Mathlib

/-!
Shallow embedding of the discrete-choice evaluation engine, the estimation
data-bundle writer, the location-choice iteration loop and the survey
override inference scripts of the ActivitySim travel-demand microsimulation
engine, together with proofs about them.

Conventions: pandas DataFrames are modelled row-wise; a single chooser row of
a utilities / probabilities frame is an association list `List (String × ℝ)`
from column name to value (all the relevant operations are row-independent).
Machine `np.int8` narrowing is modelled explicitly on `ℤ`.  File systems are
lists of file names.  Fallible code returns `Option` or `Except`.
-/

namespace ActivitySim


/-- Nest tree of a nested-logit model, as described by the `nest_spec` model
settings: each internal node carries a nesting coefficient and a list of
child alternatives (strings in the YAML become leaves, dicts become nodes). -/
inductive NestSpec where
  | leaf (name : String)
  | node (name : String) (coefficient : ℝ) (alternatives : List NestSpec)

/-- Name of the root of a nest (sub)tree. -/
def NestSpec.name : NestSpec → String
  | .leaf n => n
  | .node n _ _ => n

mutual
/-- All node names of a nest tree, in pre-order. -/
def NestSpec.names : NestSpec → List String
  | .leaf n => [n]
  | .node n _ alts => n :: namesList alts

/-- All node names of a list of nest trees, in pre-order. -/
def namesList : List NestSpec → List String
  | [] => []
  | t :: ts => t.names ++ namesList ts
end

mutual
/-- Modelled from the spec: `logit.count_nests` (the `logit` module is not part
of this source slice).  Per §4.5/§4.9 of the spec the nest count feeds the
chunk row-cost formulas in which `nested_exp_utilities` has one column per
tree node (leaves, inner nests and the root alike), so the count is the total
number of nodes of the nest tree. -/
def NestSpec.countNests : NestSpec → ℕ
  | .leaf _ => 1
  | .node _ _ alts => 1 + countNestsList alts

/-- Total node count of a list of nest trees. -/
def countNestsList : List NestSpec → ℕ
  | [] => 0
  | t :: ts => t.countNests + countNestsList ts
end

/-! ### Definitions: Chunked-execution row cost (§4.5, §4.9; `simple_simulate_rpc` and
`simple_simulate_logsums_rpc` in `activitysim/core/simulate.py`) -/

/-- Extra column count computed by `simple_simulate_rpc`
(`activitysim/core/simulate.py`): for MNL (no nest spec)
`spec.shape[0] + 2 * spec.shape[1]`, for NL additionally
`2 * count_nests(nest_spec) - 1`.  `specRows` is `spec.shape[0]` (spec row
count) and `specCols` is `spec.shape[1]` (alternative count). -/
def simpleSimulateExtraColumns (specRows specCols : ℕ) (nestSpec : Option NestSpec) : ℕ :=
  match nestSpec with
  | none => specRows + 2 * specCols
  | some ns => specRows + 2 * specCols + 2 * ns.countNests - 1

/-- Row size computed by `simple_simulate_rpc`: chooser column count plus the
extra columns. -/
def simpleSimulateRowSize (chooserCols specRows specCols : ℕ)
    (nestSpec : Option NestSpec) : ℕ :=
  chooserCols + simpleSimulateExtraColumns specRows specCols nestSpec

/-- Extra column count computed by `simple_simulate_logsums_rpc`
(`activitysim/core/simulate.py`): for MNL `spec.shape[0] + spec.shape[1]`,
for NL additionally `count_nests(nest_spec)`. -/
def simpleSimulateLogsumsExtraColumns (specRows specCols : ℕ)
    (nestSpec : Option NestSpec) : ℕ :=
  match nestSpec with
  | none => specRows + specCols
  | some ns => specRows + specCols + ns.countNests

/-- Row size computed by `simple_simulate_logsums_rpc`. -/
def simpleSimulateLogsumsRowSize (chooserCols specRows specCols : ℕ)
    (nestSpec : Option NestSpec) : ℕ :=
  chooserCols + simpleSimulateLogsumsExtraColumns specRows specCols nestSpec

/-! ### Definitions: Survey override inference (`example_estimation/infer.py`,
`infer_mandatory_tour_frequency`) -/

/-- Signed 8-bit narrowing, as performed by `.astype(np.int8)` and by numpy
`int8` arithmetic: the representative of `z` modulo 256 lying in
`[-128, 127]`. -/
def int8 (z : ℤ) : ℤ := (z + 128) % 256 - 128

/-- A survey tour row, reduced to the columns `infer_mandatory_tour_frequency`
reads: `person_id` and `tour_type`. -/
structure SurveyTour where
  personId : ℤ
  tourType : String

/-- Number of survey tours of a given type for a given person
(`tours[tours.tour_type == ty].groupby('person_id').size()` reindexed with
`fillna(0)`). -/
def countTours (tours : List SurveyTour) (p : ℤ) (ty : String) : ℕ :=
  (tours.filter (fun t => t.personId = p ∧ t.tourType = ty)).length

/-- The fixed `mtf` mapping table of `infer_mandatory_tour_frequency`;
`pandas.Series.map` yields a missing value (`none`) for codes outside the
table. -/
def mtfLookup (code : ℤ) : Option String :=
  if code = 0 then some ""
  else if code = 1 then some "work1"
  else if code = 2 then some "work2"
  else if code = 10 then some "school1"
  else if code = 20 then some "school2"
  else if code = 11 then some "work_and_school"
  else none

/-- The `int8` combination code computed by `infer_mandatory_tour_frequency`:
work and school tour counts are narrowed by `.astype(np.int8)`, the product
`num_school_tours*10` and the subsequent sum stay in dtype `int8` and hence
wrap. -/
def mtfCode (tours : List SurveyTour) (p : ℤ) : ℤ :=
  int8 (int8 (countTours tours p "work") + int8 (int8 (countTours tours p "school") * 10))

/-- Per-person result of `infer_mandatory_tour_frequency`
(`example_estimation/infer.py`): the `int8` combination code mapped through
the fixed table; `none` models a pandas missing value. -/
def inferMandatoryTourFrequency (tours : List SurveyTour) (p : ℤ) : Option String :=
  mtfLookup (mtfCode tours p)

/-- Module-level script body of `example_estimation/infer.py`, restricted to
the `mandatory_tour_frequency` column: the inferred value is attached to
every person row and written to the override output, with no error path for
unmapped codes. -/
def overrideMtfColumn (persons : List ℤ) (tours : List SurveyTour) :
    List (ℤ × Option String) :=
  persons.map (fun p => (p, inferMandatoryTourFrequency tours p))

/-- A person with six survey work tours and twenty-five survey school tours
(true combination code `6 + 10·25 = 256`, which has no entry in the fixed
table). -/
def mtfBadTours : List SurveyTour :=
  List.replicate 6 ⟨1, "work"⟩ ++ List.replicate 25 ⟨1, "school"⟩

/-- A person with seven survey work tours and twenty-five survey school tours
(true combination code `7 + 10·25 = 257`, outside the fixed table, which the
`int8` arithmetic wraps onto the mapped key `1`). -/
def mtfWrapTours : List SurveyTour :=
  List.replicate 7 ⟨1, "work"⟩ ++ List.replicate 25 ⟨1, "school"⟩

/-! ### Definitions: Estimation data-bundle writer
(`activitysim/abm/models/util/estimation.py`: `EstimationManager` and
`Estimator.__init__`) -/

/-- State of the global `EstimationManager` together with the estimation data
bundle on disk. `enabled` is the truthiness of the `enable` setting, `models`
the `models` list, `modelSettingNames` the keys of `model_settings`,
`estimating` the keys of the `estimating` dict, and `bundleFiles m` the
listing of the per-model output directory `estimation_data_bundle/<m>`. -/
structure EMState where
  enabled : Bool
  models : List String
  modelSettingNames : List String
  estimating : List String
  bundleFiles : String → List String

/-- Python `str.startswith`, on the character lists of the strings. -/
def pyStartsWith (f m : String) : Bool := m.data.isPrefixOf f.data

/-- Python `str.endswith`, on the character lists of the strings. -/
def pyEndsWith (f m : String) : Bool := m.data.reverse.isPrefixOf f.data.reverse

/-- Deletion predicate of `Estimator.__init__`: a pre-existing file is
unlinked exactly when its name starts with the model name and ends with
`csv` or `yaml` (`file_name.startswith(model_name) and
file_name.endswith(('csv', 'yaml'))`). -/
def estimatorDeletes (modelName f : String) : Bool :=
  pyStartsWith f modelName && (pyEndsWith f "csv" || pyEndsWith f "yaml")

/-- Directory contents after `Estimator.__init__` has deleted the stale
per-model files. -/
def estimatorInitFiles (modelName : String) (files : List String) : List String :=
  files.filter (fun f => !estimatorDeletes modelName f)

/-- `EstimationManager.begin_estimation(model_name)`: `none` models the falsy
`None` returns (estimation globally disabled, or model not listed); the
`Except.error` branch models the failing `assert` whose condition in the
source is `model_name in self.model_settings` (the message speaks of
estimating the same model twice, but the tested condition does not);
otherwise an `Estimator` is constructed (deleting stale bundle files) and
registered under the model name in `estimating`. -/
def beginEstimation (st : EMState) (modelName : String) :
    Except String (Option String × EMState) :=
  if st.enabled = false then .ok (none, st)
  else if modelName ∉ st.models then .ok (none, st)
  else if modelName ∉ st.modelSettingNames then
    .error "Cant begin estimating - already estimating that model."
  else
    .ok (some modelName,
      { st with
        estimating :=
          if modelName ∈ st.estimating then st.estimating
          else modelName :: st.estimating
        bundleFiles := fun m =>
          if m = modelName then estimatorInitFiles modelName (st.bundleFiles m)
          else st.bundleFiles m })

/-- `EstimationManager.release`: the estimator's model name is removed from
the `estimating` dict. -/
def releaseEstimator (st : EMState) (modelName : String) : EMState :=
  { st with estimating := st.estimating.erase modelName }

/-- Per-model bundle directory listing after a `begin_estimation` call (empty
when the call failed). -/
def filesAfterBegin (st : EMState) (m : String) : List String :=
  match beginEstimation st m with
  | .ok (_, st') => st'.bundleFiles m
  | .error _ => []

/-- Concrete manager state: estimation enabled, one listed model with model
settings, and a bundle directory holding one stale csv and one stale txt
file. -/
def emStateEx : EMState where
  enabled := true
  models := ["auto_ownership"]
  modelSettingNames := ["auto_ownership"]
  estimating := []
  bundleFiles := fun _ => ["auto_ownership_choices.csv", "auto_ownership_notes.txt"]

/-- Concrete manager state used to exercise repeated `begin_estimation`. -/
def emStateTwice : EMState where
  enabled := true
  models := ["workplace_location"]
  modelSettingNames := ["workplace_location"]
  estimating := []
  bundleFiles := fun _ => []

/-! ### Definitions: Shadow-price iteration loop
(`activitysim/abm/models/location_choice.py`, `iterate_location_choice`) -/

/-- Observable calls made by one run of the `iterate_location_choice` loop,
tagged with the 1-based iteration number. -/
inductive LCEvent where
  | updateShadowPrices (iteration : ℕ)
  | runChoice (iteration : ℕ)
  | setChoices (iteration : ℕ)
  | writeTraceFiles (iteration : ℕ)
deriving DecidableEq

/-- Body of `for iteration in range(1, max_iterations + 1)` in
`iterate_location_choice`, as the list of calls it performs: update shadow
prices when `spc.use_shadow_pricing and iteration > 1`, run the location
choice, record the choices via `spc.set_choices`, write per-iteration trace
files when `locutor`, and stop early when
`spc.use_shadow_pricing and spc.check_fit(iteration)`.  (`run_location_choice`
in this source always returns a DataFrame, so the `choices_df is None` break
is dead code and not modelled.)  `fuel` is the number of remaining
iterations, `i` the current iteration number. -/
def ilcLoop (usp locutor : Bool) (conv : ℕ → Bool) : ℕ → ℕ → List LCEvent
  | 0, _ => []
  | fuel + 1, i =>
      (if usp && decide (1 < i) then [LCEvent.updateShadowPrices i] else [])
        ++ [LCEvent.runChoice i, LCEvent.setChoices i]
        ++ (if locutor then [LCEvent.writeTraceFiles i] else [])
        ++ (if usp && conv i then [] else ilcLoop usp locutor conv fuel (i + 1))

/-- Call trace of the `iterate_location_choice` convergence loop:
`max_iterations` available iterations starting at iteration 1. -/
def iterateLocationChoiceTrace (usp locutor : Bool) (maxIterations : ℕ)
    (conv : ℕ → Bool) : List LCEvent :=
  ilcLoop usp locutor conv maxIterations 1

/-- Iteration `i` is actually executed by the loop when it is within the fuel
window starting at `i₀` and no earlier iteration both had shadow pricing
enabled and converged. -/
def ilcRuns (usp : Bool) (conv : ℕ → Bool) (i₀ fuel i : ℕ) : Prop :=
  i₀ ≤ i ∧ i < i₀ + fuel ∧
    ∀ j, i₀ ≤ j → j < i → ¬(usp = true ∧ conv j = true)

/-! ### Definitions: Nested-logit utilities
(`activitysim/core/simulate.py`: `compute_nested_exp_utilities`,
`compute_nested_probabilities`, `compute_base_probabilities`; the nest
traversal `logit.each_nest` and the normalization `logit.utils_to_probs` are
modelled from the spec, their module not being part of this source slice.) -/

/-- Lookup of a column value in one row of a dataframe, modelled as an
association list (first match wins; pandas column labels are unique). -/
def dfLookup (df : List (String × ℝ)) (k : String) : Option ℝ :=
  match df with
  | [] => none
  | (k', v) :: rest => if k' = k then some v else dfLookup rest k

/-- Column value with default 0 (columns are always present where used; the
default only totalizes the function). -/
def dfCol (df : List (String × ℝ)) (k : String) : ℝ :=
  (dfLookup df k).getD 0

/-- Column assignment `df[k] = v`: replaces the column if present, else
appends it, as pandas does. -/
def dfSet (df : List (String × ℝ)) (k : String) (v : ℝ) : List (String × ℝ) :=
  match df with
  | [] => [(k, v)]
  | (k', v') :: rest => if k' = k then (k, v) :: rest else (k', v') :: dfSet rest k v

/-- Row-wise sum over a selection of columns (`df[cols].sum(axis=1)`). -/
def dfSum (df : List (String × ℝ)) (cols : List String) : ℝ :=
  (cols.map (dfCol df)).sum

/-- Modelled from the spec: the per-nest record produced by
`logit.each_nest` — name, leaf/node type, nesting coefficient, derived
product of ancestor coefficients, child alternative names, and the ancestor
name path (self included). -/
structure Nest where
  name : String
  isLeafNode : Bool
  coefficient : ℝ
  productOfCoefficients : ℝ
  alternatives : List String
  ancestors : List String

mutual
/-- Modelled from the spec: `logit.each_nest` traversal of a nest (sub)tree in
pre- or post-order, threading the running product of ancestor coefficients
and the ancestor name path.  A leaf's `productOfCoefficients` is the product
of its ancestors' nesting coefficients; a node multiplies its own coefficient
into the product handed to its children.  (A leaf has no coefficient of its
own; the field is filled with 1 and never read.) -/
def eachNestAux (postOrder : Bool) (ancProd : ℝ) (anc : List String) :
    NestSpec → List Nest
  | .leaf n => [⟨n, true, 1, ancProd, [], anc ++ [n]⟩]
  | .node n c alts =>
      if postOrder then
        eachNestListAux postOrder (ancProd * c) (anc ++ [n]) alts ++
          [⟨n, false, c, ancProd * c, alts.map NestSpec.name, anc ++ [n]⟩]
      else
        ⟨n, false, c, ancProd * c, alts.map NestSpec.name, anc ++ [n]⟩ ::
          eachNestListAux postOrder (ancProd * c) (anc ++ [n]) alts

/-- Traversal of a list of sibling subtrees, left to right. -/
def eachNestListAux (postOrder : Bool) (ancProd : ℝ) (anc : List String) :
    List NestSpec → List Nest
  | [] => []
  | t :: ts => eachNestAux postOrder ancProd anc t ++
      eachNestListAux postOrder ancProd anc ts
end

/-- Modelled from the spec: `logit.each_nest(nest_spec, post_order=...)`
starting at the root with no ancestors and an ancestor product of 1. -/
def eachNest (spec : NestSpec) (postOrder : Bool) : List Nest :=
  eachNestAux postOrder 1 [] spec

mutual
/-- Node names of a nest tree in post-order (children before parents). -/
def postOrderNames : NestSpec → List String
  | .leaf n => [n]
  | .node n _ alts => postOrderNamesList alts ++ [n]

/-- Post-order names of a list of sibling subtrees. -/
def postOrderNamesList : List NestSpec → List String
  | [] => []
  | t :: ts => postOrderNames t ++ postOrderNamesList ts
end

mutual
/-- All subtrees of a nest tree in post-order, each paired with the product of
its ancestors' nesting coefficients (the subtree's own root included for
nodes' children). -/
def subtreesProd : NestSpec → ℝ → List (NestSpec × ℝ)
  | .leaf n, p => [(.leaf n, p)]
  | .node n c alts, p => subtreesProdList alts (p * c) ++ [(.node n c alts, p)]

/-- Subtrees of a list of sibling subtrees, with ancestor products. -/
def subtreesProdList : List NestSpec → ℝ → List (NestSpec × ℝ)
  | [], _ => []
  | t :: ts, p => subtreesProd t p ++ subtreesProdList ts p
end

mutual
/-- The nested exponentiated utility of a (sub)tree, defined recursively on
the tree as the claim states it: a leaf is `exp(raw / ancestor product)`, a
node is `exp(coefficient · ln(sum of its children's values))`, each node
depending only on its children. -/
noncomputable def nestedExpUtil (raw : String → ℝ) : NestSpec → ℝ → ℝ
  | .leaf n, ancProd => Real.exp (raw n / ancProd)
  | .node _ c alts, ancProd =>
      Real.exp (c * Real.log (nestedExpUtilSum raw alts (ancProd * c)))

/-- Sum of the nested exponentiated utilities of sibling subtrees. -/
noncomputable def nestedExpUtilSum (raw : String → ℝ) : List NestSpec → ℝ → ℝ
  | [], _ => 0
  | t :: ts, p => nestedExpUtil raw t p + nestedExpUtilSum raw ts p
end

/-- The column/value pairs the recursive characterization predicts for the
whole frame, in post-order. -/
noncomputable def nestedExpEntries (raw : String → ℝ) (t : NestSpec) (p : ℝ) :
    List (String × ℝ) :=
  (subtreesProd t p).map (fun tp => (tp.1.name, nestedExpUtil raw tp.1 tp.2))

/-- Entry list for sibling subtrees. -/
noncomputable def nestedExpEntriesList (raw : String → ℝ) (ts : List NestSpec) (p : ℝ) :
    List (String × ℝ) :=
  (subtreesProdList ts p).map (fun tp => (tp.1.name, nestedExpUtil raw tp.1 tp.2))

/-- Single step of the `compute_nested_exp_utilities` loop: assign column
`nest.name` of the growing `nested_utilities` frame.  A leaf divides its raw
utility by the product of ancestor coefficients; a node takes
`coefficient * log` of the row sum of its children's already-assigned
columns; either value is then exponentiated. -/
noncomputable def cneuStep (raw : String → ℝ) (nu : List (String × ℝ)) (nest : Nest) :
    List (String × ℝ) :=
  dfSet nu nest.name
    (Real.exp (if nest.isLeafNode then raw nest.name / nest.productOfCoefficients
      else nest.coefficient * Real.log (dfSum nu nest.alternatives)))

/-- `compute_nested_exp_utilities` (`activitysim/core/simulate.py`): one
chooser row of the raw-utilities frame is the function `raw`; the loop visits
`each_nest(nest_spec, post_order=True)` and assigns each nest's column into
an initially empty frame. -/
noncomputable def computeNestedExpUtilities (raw : String → ℝ) (nestSpec : NestSpec) :
    List (String × ℝ) :=
  (eachNest nestSpec true).foldl (cneuStep raw) []

/-- A concrete three-level nest tree with distinct names. -/
noncomputable def exNestTree : NestSpec :=
  .node "root" 1 [.node "auto" 2 [.leaf "car", .leaf "carpool"], .leaf "walk"]

/-- A concrete raw-utility row for `exNestTree`. -/
noncomputable def exRaw : String → ℝ := fun _ => 1

/-- Modelled from the spec: `logit.utils_to_probs` with `exponentiated=True`
and `allow_zero_probs=True` — each column is normalized by the row sum of the
selected (already exponentiated) columns; a zero row sum yields the all-zero
probabilities the flag allows (in `ℝ`, division by zero is zero). -/
noncomputable def utilsToProbsExp (v : String → ℝ) (cols : List String) :
    List (String × ℝ) :=
  cols.map (fun a => (a, v a / (cols.map v).sum))

/-- `compute_nested_probabilities` (`activitysim/core/simulate.py`): iterate
the nest-tree nodes in pre-order (`each_nest(type='node', post_order=False)`)
and concatenate, per node, the normalization of its children's exponentiated
nested utilities against each other.  One chooser row of the
`nested_exp_utilities` frame is the function `v`. -/
noncomputable def computeNestedProbabilities (v : String → ℝ) (spec : NestSpec) :
    List (String × ℝ) :=
  ((eachNest spec false).filter (fun nest => !nest.isLeafNode)).foldl
    (fun np nest => np ++ utilsToProbsExp v nest.alternatives) []

/-- Leaf-probability frame built by the loop of `compute_base_probabilities`:
for each leaf (`each_nest(type='leaf', post_order=False)`) assign the product
of the nested probabilities of `nest.ancestors[1:]` — the path from the root
(excluded) down to the leaf (included). -/
noncomputable def baseProbTable (np : List (String × ℝ)) (spec : NestSpec) :
    List (String × ℝ) :=
  ((eachNest spec false).filter (fun nest => nest.isLeafNode)).foldl
    (fun b nest => dfSet b nest.name (((nest.ancestors.drop 1).map (dfCol np)).prod))
    []

/-- `compute_base_probabilities` (`activitysim/core/simulate.py`): the leaf
frame reordered to the spec's alternative column order
(`base_probabilities[spec.columns]`, after the assert that the two column
sets agree). -/
noncomputable def computeBaseProbabilities (np : List (String × ℝ)) (spec : NestSpec)
    (specCols : List String) : List (String × ℝ) :=
  specCols.map (fun c => (c, dfCol (baseProbTable np spec) c))

mutual
/-- Conditional-probability entries the pre-order node iteration of
`compute_nested_probabilities` is expected to produce: per node, each child's
value normalized against its siblings, node blocks in pre-order. -/
noncomputable def condProbEntries (v : String → ℝ) : NestSpec → List (String × ℝ)
  | .leaf _ => []
  | .node _ _ alts =>
      utilsToProbsExp v (alts.map NestSpec.name) ++ condProbEntriesList v alts

/-- Conditional-probability entries of a list of sibling subtrees. -/
noncomputable def condProbEntriesList (v : String → ℝ) :
    List NestSpec → List (String × ℝ)
  | [] => []
  | t :: ts => condProbEntries v t ++ condProbEntriesList v ts
end

mutual
/-- The `(child name, sibling names)` pairs of a nest tree: one pair per
non-root node, keyed by the child and carrying the full sibling group it is
normalized against. -/
def childCondPairs : NestSpec → List (String × List String)
  | .leaf _ => []
  | .node _ _ alts =>
      alts.map (fun a => (a.name, alts.map NestSpec.name)) ++ childCondPairsList alts

/-- Child/sibling pairs of a list of sibling subtrees. -/
def childCondPairsList : List NestSpec → List (String × List String)
  | [] => []
  | t :: ts => childCondPairs t ++ childCondPairsList ts
end

mutual
/-- Leaves of a nest (sub)tree, each paired with the name path from `anc`
through the subtree down to (and including) the leaf — the `ancestors` field
of the leaf's traversal record. -/
def leavesWithAnc : NestSpec → List String → List (String × List String)
  | .leaf n, anc => [(n, anc ++ [n])]
  | .node n _ alts, anc => leavesWithAncList alts (anc ++ [n])

/-- Leaves with ancestor paths of a list of sibling subtrees. -/
def leavesWithAncList : List NestSpec → List String → List (String × List String)
  | [], _ => []
  | t :: ts, anc => leavesWithAnc t anc ++ leavesWithAncList ts anc
end

mutual
/-- Leaf names of a nest tree, left to right. -/
def leafNames : NestSpec → List String
  | .leaf n => [n]
  | .node _ _ alts => leafNamesList alts

/-- Leaf names of a list of sibling subtrees. -/
def leafNamesList : List NestSpec → List String
  | [] => []
  | t :: ts => leafNames t ++ leafNamesList ts
end

/-- Names of the non-root nodes of a nest tree. -/
def tailNames : NestSpec → List String
  | .leaf _ => []
  | .node _ _ alts => namesList alts

mutual
/-- The base (unconditional) leaf probabilities as the claim characterizes
them: descend the tree from the root, multiplying in each visited child's
conditional probability `v child / Σ siblings` (the root contributes no
factor), so a leaf's value is the product of the conditional probabilities
along its path to the root, root excluded. -/
noncomputable def baseProbRec (v : String → ℝ) : NestSpec → ℝ → List (String × ℝ)
  | .leaf n, acc => [(n, acc)]
  | .node _ _ alts, acc =>
      baseProbRecList v alts ((alts.map (fun a => v a.name)).sum) acc

/-- Descend a sibling group: each sibling's conditional probability is its
value over the shared sibling sum `s`. -/
noncomputable def baseProbRecList (v : String → ℝ) :
    List NestSpec → ℝ → ℝ → List (String × ℝ)
  | [], _, _ => []
  | t :: ts, s, acc =>
      baseProbRec v t (acc * (v t.name / s)) ++ baseProbRecList v ts s acc
end

/-! ### Definitions: Bad choosers in `eval_nl`
(`activitysim/core/simulate.py`: the tolerance check on base probabilities;
`logit.report_bad_choices` and `logit.make_choices` are modelled from the
spec, their module not being part of this source slice.) -/

/-- `BAD_PROB_THRESHOLD` in `eval_nl`. -/
noncomputable def badProbThreshold : ℝ := 0.001

/-- The bad-chooser rows `eval_nl` reports: row indices whose base
probabilities sum differs from 1 by more than the tolerance
(`base_probabilities.sum(axis=1).sub(1).abs() > BAD_PROB_THRESHOLD`).
Modelled from the spec, `logit.report_bad_choices` logs these rows and
returns — reporting is non-fatal. -/
noncomputable def badChoosers (rows : List (List ℝ)) : List ℕ :=
  (List.range rows.length).filter
    (fun i => decide (|(rows.getD i []).sum - 1| > badProbThreshold))

/-- Modelled from the spec: one categorical draw of `logit.make_choices` for
one chooser row — the probabilities are normalized by their sum and the draw
value selects the first alternative whose cumulative probability exceeds it;
the draw fails exactly when the probabilities cannot be normalized (their sum
is zero). -/
noncomputable def chooseIndex (probs : List ℝ) (rand : ℝ) : ℕ :=
  match probs with
  | [] => 0
  | p :: rest => if rand < p then 0 else chooseIndex rest (rand - p) + 1

/-- Draw for one row, failing when normalization is impossible. -/
noncomputable def makeChoicesRow (probs : List ℝ) (rand : ℝ) : Except String ℕ :=
  if probs.sum = 0 then .error "choice draw cannot normalize probabilities"
  else .ok (chooseIndex (probs.map (fun x => x / probs.sum)) rand)

/-- Modelled from the spec: `logit.make_choices` over all chooser rows with
their per-row random draws. -/
noncomputable def makeChoices : List (List ℝ) → List ℝ → Except String (List ℕ)
  | [], _ => .ok []
  | r :: rest, rand :: rrest =>
      match makeChoicesRow r rand, makeChoices rest rrest with
      | .ok c, .ok cs => .ok (c :: cs)
      | .error e, _ => .error e
      | .ok _, .error e => .error e
  | _ :: _, [] => .error "no rand for chooser row"

/-- Tail of `eval_nl` after `compute_base_probabilities`: report the rows
violating the tolerance, then hand the base probabilities to the choice
draw.  The reported rows are returned alongside the draw result; reporting
itself never fails. -/
noncomputable def evalNlChoiceStage (rows : List (List ℝ)) (rands : List ℝ) :
    List ℕ × Except String (List ℕ) :=
  (badChoosers rows, makeChoices rows rands)

/-! ### Definitions: Spec loading (`activitysim/core/simulate.py`: `read_model_spec` and
`uniquify_spec_index`; the helper `assign.uniquify_key` is modelled from the
spec, its module not being part of this source slice.) -/

/-- The suffixed key of the template `"{} # ({})"`. -/
def mkSuffixed (key : String) (n : ℕ) : String :=
  key ++ " # (" ++ toString n ++ ")"

/-- Totalizing fallback for the suffix search: a string strictly longer than
every used key, hence never itself used.  The Python `while` loop always
terminates by the same finiteness argument, so this branch is unreachable in
practice. -/
def uniquifyFallback (used : List String) (key : String) : String :=
  used.foldl (fun a b => a ++ b) "" ++ key ++ "#"

/-- Bounded search for the first unused suffixed key. -/
def uniquifySearch (used : List String) (key : String) : ℕ → ℕ → String
  | _, 0 => uniquifyFallback used key
  | n, fuel + 1 =>
      if mkSuffixed key n ∈ used then uniquifySearch used key (n + 1) fuel
      else mkSuffixed key n

/-- Modelled from the spec: `assign.uniquify_key(dict, key, "{} # ({})")` —
the key itself when unused, otherwise `key # (n)` for the first count `n ≥ 1`
that is not yet a key. -/
def uniquifyKey (used : List String) (key : String) : String :=
  if key ∈ used then uniquifySearch used key 1 (used.length + 1) else key

/-- `uniquify_spec_index` (`activitysim/core/simulate.py`): rebuild the
Expression index left to right, disambiguating each entry against the keys
already chosen. -/
def uniquifySpecIndex (index : List String) : List String :=
  index.foldl (fun acc k => acc ++ [uniquifyKey acc k]) []

/-- Drop rows with a missing Expression, set the expression as the key, and
fill missing cells with 0 (`dropna(subset=['Expression'])`,
`set_index('Expression').fillna(0)`). -/
def specDropNaFill (rows : List (Option String × List (Option ℚ))) :
    List (String × List ℚ) :=
  rows.filterMap (fun r => r.1.map (fun e => (e, r.2.map (fun c => c.getD 0))))

/-- `read_model_spec` (`activitysim/core/simulate.py`), its data pipeline on
already-parsed CSV rows of `(Expression, alternative coefficient cells)`
(the `Description` column is dropped and the optional `Label` index is not
bound by the claims): uniquify the expression index, then drop the rows
whose cells are all zero. -/
def readModelSpec (rows : List (Option String × List (Option ℚ))) :
    List (String × List ℚ) :=
  ((uniquifySpecIndex ((specDropNaFill rows).map Prod.fst)).zip
    ((specDropNaFill rows).map Prod.snd)).filter
    (fun r => !(r.2.all (fun c => c == 0)))

/-! ## Theorems -/

/-- Induction principle for `NestSpec` that provides the inductive hypothesis
for every member of a node's list of children. -/
theorem NestSpec.inductionOn {P : NestSpec → Prop}
    (hleaf : ∀ n, P (.leaf n))
    (hnode : ∀ n c alts, (∀ t ∈ alts, P t) → P (.node n c alts)) :
    ∀ t, P t
  | .leaf n => hleaf n
  | .node n c alts => hnode n c alts (fun t ht =>
      have : sizeOf t < sizeOf (NestSpec.node n c alts) := by
        have := List.sizeOf_lt_of_mem ht
        simp only [NestSpec.node.sizeOf_spec]
        omega
      NestSpec.inductionOn hleaf hnode t)
termination_by t => sizeOf t

/-! ### Theorems: Chunked-execution row cost (§4.5, §4.9; `simple_simulate_rpc` and
`simple_simulate_logsums_rpc` in `activitysim/core/simulate.py`) -/

/-- Every nest tree has at least one node. -/
theorem NestSpec.one_le_countNests : ∀ t : NestSpec, 1 ≤ t.countNests := by
  intro t
  induction t using NestSpec.inductionOn with
  | hleaf n => simp [NestSpec.countNests]
  | hnode n c alts _ => simp [NestSpec.countNests]

/-! ### Theorems: Survey override inference (`example_estimation/infer.py`,
`infer_mandatory_tour_frequency`) -/

/-- Narrowing is the identity on the signed 8-bit range. -/
theorem int8_eq_self {z : ℤ} (h1 : -128 ≤ z) (h2 : z ≤ 127) : int8 z = z := by
  unfold int8
  omega

/-- When the true combination code fits in `int8`, the narrowed code is the
true code `w + 10·s`. -/
theorem mtfCode_eq_of_small (tours : List SurveyTour) (p : ℤ)
    (h : countTours tours p "work" + 10 * countTours tours p "school" ≤ 127) :
    mtfCode tours p =
      (countTours tours p "work" : ℤ) + 10 * (countTours tours p "school" : ℤ) := by
  unfold mtfCode int8
  omega

/-- C9, counterexample: for a person with 6 work and 25 school survey tours
the true code `w + 10·s = 256` has no entry in the fixed table, yet the code
returns the label `''` because the `int8` arithmetic wraps `256` to `0`; so
`infer_mandatory_tour_frequency` does not map `w + 10·s` through the fixed
table for every person. -/
theorem inferMtf_not_map_of_true_code :
    inferMandatoryTourFrequency mtfBadTours 1 = some "" ∧
    countTours mtfBadTours 1 "work" = 6 ∧
    countTours mtfBadTours 1 "school" = 25 ∧
    mtfLookup (6 + 10 * 25) = none := by
  decide

/-- C9 (amended): for every person, `infer_mandatory_tour_frequency` counts
the person's survey work tours `w` and school tours `s` and maps the
`int8`-narrowed code through the fixed table; whenever `w + 10·s ≤ 127` the
narrowed code equals `w + 10·s`, and in particular `(w,s) = (1,0)` yields
`work1`, `(0,2)` yields `school2` and `(1,1)` yields `work_and_school`. -/
theorem inferMtf_maps_small_codes (tours : List SurveyTour) (p : ℤ)
    (h : countTours tours p "work" + 10 * countTours tours p "school" ≤ 127) :
    inferMandatoryTourFrequency tours p =
      mtfLookup ((countTours tours p "work" : ℤ) +
        10 * (countTours tours p "school" : ℤ)) ∧
    (countTours tours p "work" = 1 → countTours tours p "school" = 0 →
      inferMandatoryTourFrequency tours p = some "work1") ∧
    (countTours tours p "work" = 0 → countTours tours p "school" = 2 →
      inferMandatoryTourFrequency tours p = some "school2") ∧
    (countTours tours p "work" = 1 → countTours tours p "school" = 1 →
      inferMandatoryTourFrequency tours p = some "work_and_school") := by
  have hcode := mtfCode_eq_of_small tours p h
  have hmain : inferMandatoryTourFrequency tours p =
      mtfLookup ((countTours tours p "work" : ℤ) +
        10 * (countTours tours p "school" : ℤ)) := by
    unfold inferMandatoryTourFrequency
    rw [hcode]
  refine ⟨hmain, ?_, ?_, ?_⟩
  · intro hw hs
    rw [hmain, hw, hs]
    decide
  · intro hw hs
    rw [hmain, hw, hs]
    decide
  · intro hw hs
    rw [hmain, hw, hs]
    decide

/-- Witness for `inferMtf_maps_small_codes` at a concrete single work tour. -/
theorem inferMtf_maps_small_codes_witness :
    countTours [⟨1, "work"⟩] 1 "work" + 10 * countTours [⟨1, "work"⟩] 1 "school" ≤ 127 ∧
    inferMandatoryTourFrequency [⟨1, "work"⟩] 1 = some "work1" :=
  ⟨by decide,
    (inferMtf_maps_small_codes [⟨1, "work"⟩] 1 (by decide)).2.1 (by decide) (by decide)⟩

/-- C10, counterexample: a person whose true combination code `w + 10·s = 257`
falls outside the six mapped keys nevertheless receives the non-missing label
`work1`, because the `int8` arithmetic wraps `257` to the mapped key `1`; so
an out-of-table code does not always produce a missing value. -/
theorem inferMtf_wrap_not_missing :
    inferMandatoryTourFrequency mtfWrapTours 1 = some "work1" ∧
    countTours mtfWrapTours 1 "work" = 7 ∧
    countTours mtfWrapTours 1 "school" = 25 ∧
    mtfLookup (7 + 10 * 25) = none := by
  decide

/-- C10 (amended): for every person whose `int8`-narrowed combination code
falls outside the six mapped keys (in particular any person with
`w + 10·s ≤ 127` off the table, e.g. three or more work tours),
`infer_mandatory_tour_frequency` returns a missing value rather than raising
an error, and the person's row passes through into the override output with
that missing value. -/
theorem inferMtf_missing_of_unmapped (persons : List ℤ) (tours : List SurveyTour)
    (p : ℤ) (hp : p ∈ persons)
    (h : mtfCode tours p ∉ ([0, 1, 2, 10, 20, 11] : List ℤ)) :
    inferMandatoryTourFrequency tours p = none ∧
    (p, (none : Option String)) ∈ overrideMtfColumn persons tours := by
  simp only [List.mem_cons, List.not_mem_nil, or_false, not_or] at h
  obtain ⟨h0, h1, h2, h10, h20, h11⟩ := h
  have hnone : inferMandatoryTourFrequency tours p = none := by
    unfold inferMandatoryTourFrequency mtfLookup
    rw [if_neg h0, if_neg h1, if_neg h2, if_neg h10, if_neg h20, if_neg h11]
  refine ⟨hnone, ?_⟩
  unfold overrideMtfColumn
  exact List.mem_map.mpr ⟨p, hp, by rw [hnone]⟩

/-- Witness for `inferMtf_missing_of_unmapped` at a concrete person with three
work tours (code `3`). -/
theorem inferMtf_missing_of_unmapped_witness :
    (1 : ℤ) ∈ [(1 : ℤ)] ∧
    mtfCode (List.replicate 3 ⟨1, "work"⟩) 1 ∉ ([0, 1, 2, 10, 20, 11] : List ℤ) ∧
    inferMandatoryTourFrequency (List.replicate 3 ⟨1, "work"⟩) 1 = none :=
  ⟨by decide, by decide,
    (inferMtf_missing_of_unmapped [1] (List.replicate 3 ⟨1, "work"⟩) 1
      (by decide) (by decide)).1⟩

/-! ### Theorems: Estimation data-bundle writer
(`activitysim/abm/models/util/estimation.py`: `EstimationManager` and
`Estimator.__init__`) -/

/-- C6 (amended): `begin_estimation(model_name)` returns a falsy value and
leaves the bundle untouched whenever estimation is globally disabled or the
model is not listed among the estimation settings' models; when the model is
listed (and has model settings), the constructed `Estimator` deletes exactly
the pre-existing files of its per-model output directory whose name is
prefixed with the model name and ends with `csv` or `yaml`. -/
theorem beginEstimation_falsy_and_deletes (st : EMState) (m : String) :
    (st.enabled = false → beginEstimation st m = .ok (none, st)) ∧
    (m ∉ st.models → beginEstimation st m = .ok (none, st)) ∧
    (st.enabled = true → m ∈ st.models → m ∈ st.modelSettingNames →
      (beginEstimation st m).toOption.map Prod.fst = some (some m) ∧
      filesAfterBegin st m =
        (st.bundleFiles m).filter
          (fun f => !(pyStartsWith f m && (pyEndsWith f "csv" || pyEndsWith f "yaml")))) := by
  refine ⟨?_, ?_, ?_⟩
  · intro h
    unfold beginEstimation
    rw [if_pos h]
  · intro h
    unfold beginEstimation
    by_cases he : st.enabled = false
    · rw [if_pos he]
    · rw [if_neg he, if_pos h]
  · intro he hm hs
    have hb : beginEstimation st m =
        .ok (some m,
          { st with
            estimating :=
              if m ∈ st.estimating then st.estimating else m :: st.estimating
            bundleFiles := fun m' =>
              if m' = m then estimatorInitFiles m (st.bundleFiles m')
              else st.bundleFiles m' }) := by
      unfold beginEstimation
      rw [if_neg (by simp [he]), if_neg (by simp [hm]), if_neg (by simp [hs])]
    refine ⟨by rw [hb]; rfl, ?_⟩
    unfold filesAfterBegin
    rw [hb]
    simp only [if_pos rfl]
    rfl

/-- Witness for `beginEstimation_falsy_and_deletes` at `emStateEx`. -/
theorem beginEstimation_falsy_and_deletes_witness :
    emStateEx.enabled = true ∧
    "auto_ownership" ∈ emStateEx.models ∧
    "auto_ownership" ∈ emStateEx.modelSettingNames ∧
    filesAfterBegin emStateEx "auto_ownership" =
      (emStateEx.bundleFiles "auto_ownership").filter
        (fun f => !(pyStartsWith f "auto_ownership" &&
          (pyEndsWith f "csv" || pyEndsWith f "yaml"))) :=
  ⟨rfl, by decide, by decide,
    ((beginEstimation_falsy_and_deletes emStateEx "auto_ownership").2.2
      rfl (by decide) (by decide)).2⟩

/-- C6, counterexample: after a successful `begin_estimation` for the listed
model `auto_ownership`, the pre-existing file `auto_ownership_notes.txt`,
whose name is prefixed with the model name, is still present — only `csv` and
`yaml` files are deleted, so the claim that every prefixed pre-existing file
is deleted fails. -/
theorem beginEstimation_keeps_prefixed_txt :
    (beginEstimation emStateEx "auto_ownership").toOption.map Prod.fst =
      some (some "auto_ownership") ∧
    pyStartsWith "auto_ownership_notes.txt" "auto_ownership" = true ∧
    "auto_ownership_notes.txt" ∈ filesAfterBegin emStateEx "auto_ownership" ∧
    "auto_ownership_choices.csv" ∉ filesAfterBegin emStateEx "auto_ownership" := by
  decide

/-- C7: calling `begin_estimation` twice for the same listed model without an
intervening `release` succeeds both times — the `assert` meant to reject a
concurrently estimated model tests `model_name in self.model_settings`
(duplicating the following assert) instead of the `estimating` registry, so
the second call does not fail. -/
theorem beginEstimation_twice_both_succeed :
    (beginEstimation emStateTwice "workplace_location").toOption.map Prod.fst =
      some (some "workplace_location") ∧
    (beginEstimation emStateTwice "workplace_location").toOption.map
        (fun r => (beginEstimation r.2 "workplace_location").toOption.map Prod.fst) =
      some (some (some "workplace_location")) := by
  decide

/-! ### Theorems: Shadow-price iteration loop
(`activitysim/abm/models/location_choice.py`, `iterate_location_choice`) -/

theorem ilcRuns_zero {usp : Bool} {conv : ℕ → Bool} {i₀ i : ℕ} :
    ¬ ilcRuns usp conv i₀ 0 i := by
  rintro ⟨h1, h2, -⟩
  omega

theorem ilcRuns_succ_iff {usp : Bool} {conv : ℕ → Bool} {i₀ fuel i : ℕ} :
    ilcRuns usp conv i₀ (fuel + 1) i ↔
      i = i₀ ∨ (¬(usp = true ∧ conv i₀ = true) ∧ ilcRuns usp conv (i₀ + 1) fuel i) := by
  constructor
  · rintro ⟨h1, h2, h3⟩
    by_cases hi : i = i₀
    · exact Or.inl hi
    · refine Or.inr ⟨h3 i₀ le_rfl (by omega), by omega, by omega, ?_⟩
      intro j hj1 hj2
      exact h3 j (by omega) hj2
  · rintro (rfl | ⟨hs, h1, h2, h3⟩)
    · exact ⟨le_rfl, by omega, fun j hj1 hj2 => absurd hj2 (by omega)⟩
    · refine ⟨by omega, by omega, ?_⟩
      intro j hj1 hj2
      rcases Nat.eq_or_lt_of_le hj1 with hj | hj
      · rwa [hj] at hs
      · exact h3 j (by omega) hj2

/-- Membership in a conditional singleton list. -/
theorem mem_ite_singleton {α : Type} {c : Prop} [Decidable c] {e x : α} :
    (e ∈ if c then [x] else []) ↔ c ∧ e = x := by
  split <;> simp_all

/-- Membership in a conditionally emptied list. -/
theorem mem_ite_nil {α : Type} {c : Prop} [Decidable c] {e : α} {l : List α} :
    (e ∈ if c then [] else l) ↔ ¬c ∧ e ∈ l := by
  split <;> simp_all

theorem runChoice_mem_ilcLoop (usp locutor : Bool) (conv : ℕ → Bool) :
    ∀ (fuel i₀ i : ℕ),
      LCEvent.runChoice i ∈ ilcLoop usp locutor conv fuel i₀ ↔
        ilcRuns usp conv i₀ fuel i := by
  intro fuel
  induction fuel with
  | zero =>
    intro i₀ i
    simp only [ilcLoop, List.not_mem_nil, false_iff]
    exact ilcRuns_zero
  | succ fuel ih =>
    intro i₀ i
    rw [ilcRuns_succ_iff]
    simp only [ilcLoop, List.mem_append, mem_ite_singleton, mem_ite_nil,
      List.mem_cons, List.not_mem_nil, or_false, LCEvent.runChoice.injEq,
      reduceCtorEq, and_false, false_or, Bool.and_eq_true, decide_eq_true_eq, ih]

theorem setChoices_mem_ilcLoop (usp locutor : Bool) (conv : ℕ → Bool) :
    ∀ (fuel i₀ i : ℕ),
      LCEvent.setChoices i ∈ ilcLoop usp locutor conv fuel i₀ ↔
        ilcRuns usp conv i₀ fuel i := by
  intro fuel
  induction fuel with
  | zero =>
    intro i₀ i
    simp only [ilcLoop, List.not_mem_nil, false_iff]
    exact ilcRuns_zero
  | succ fuel ih =>
    intro i₀ i
    rw [ilcRuns_succ_iff]
    simp only [ilcLoop, List.mem_append, mem_ite_singleton, mem_ite_nil,
      List.mem_cons, List.not_mem_nil, or_false, LCEvent.setChoices.injEq,
      reduceCtorEq, and_false, false_or, Bool.and_eq_true, decide_eq_true_eq, ih]

theorem writeTraceFiles_mem_ilcLoop (usp locutor : Bool) (conv : ℕ → Bool) :
    ∀ (fuel i₀ i : ℕ),
      LCEvent.writeTraceFiles i ∈ ilcLoop usp locutor conv fuel i₀ ↔
        locutor = true ∧ ilcRuns usp conv i₀ fuel i := by
  intro fuel
  induction fuel with
  | zero =>
    intro i₀ i
    simp only [ilcLoop, List.not_mem_nil, false_iff]
    intro h
    exact ilcRuns_zero h.2
  | succ fuel ih =>
    intro i₀ i
    rw [ilcRuns_succ_iff]
    simp only [ilcLoop, List.mem_append, mem_ite_singleton, mem_ite_nil,
      List.mem_cons, List.not_mem_nil, or_false, LCEvent.writeTraceFiles.injEq,
      reduceCtorEq, and_false, false_or, Bool.and_eq_true, decide_eq_true_eq, ih]
    tauto

theorem updateShadowPrices_mem_ilcLoop (usp locutor : Bool) (conv : ℕ → Bool) :
    ∀ (fuel i₀ i : ℕ),
      LCEvent.updateShadowPrices i ∈ ilcLoop usp locutor conv fuel i₀ ↔
        usp = true ∧ 1 < i ∧ ilcRuns usp conv i₀ fuel i := by
  intro fuel
  induction fuel with
  | zero =>
    intro i₀ i
    simp only [ilcLoop, List.not_mem_nil, false_iff]
    intro h
    exact ilcRuns_zero h.2.2
  | succ fuel ih =>
    intro i₀ i
    rw [ilcRuns_succ_iff]
    simp only [ilcLoop, List.mem_append, mem_ite_singleton, mem_ite_nil,
      List.mem_cons, List.not_mem_nil, or_false, LCEvent.updateShadowPrices.injEq,
      reduceCtorEq, and_false, false_or, Bool.and_eq_true, decide_eq_true_eq, ih]
    constructor
    · rintro (⟨⟨hu, hi⟩, rfl⟩ | ⟨hs, hu, hi, hr⟩)
      · exact ⟨hu, hi, Or.inl rfl⟩
      · exact ⟨hu, hi, Or.inr ⟨hs, hr⟩⟩
    · rintro ⟨hu, hi, rfl | ⟨hs, hr⟩⟩
      · exact Or.inl ⟨⟨hu, hi⟩, rfl⟩
      · exact Or.inr ⟨hs, hu, hi, hr⟩

/-- A two-element list is a prefix of any list starting with those two
elements. -/
theorem prefix_cons_cons {α : Type} (a b : α) (l : List α) :
    [a, b] <+: a :: b :: l := ⟨l, rfl⟩

/-- Whenever `update_shadow_prices` is called for iteration `i`, the call is
immediately followed by the re-run of iteration `i`: the pair appears as a
contiguous infix of the loop trace. -/
theorem ilcLoop_update_before_run (usp locutor : Bool) (conv : ℕ → Bool) :
    ∀ (fuel i₀ i : ℕ),
      LCEvent.updateShadowPrices i ∈ ilcLoop usp locutor conv fuel i₀ →
      [LCEvent.updateShadowPrices i, LCEvent.runChoice i] <:+:
        ilcLoop usp locutor conv fuel i₀ := by
  intro fuel
  induction fuel with
  | zero =>
    intro i₀ i h
    simp [ilcLoop] at h
  | succ fuel ih =>
    intro i₀ i h
    simp only [ilcLoop, List.mem_append, mem_ite_singleton, mem_ite_nil,
      List.mem_cons, List.not_mem_nil, or_false, LCEvent.updateShadowPrices.injEq,
      reduceCtorEq, and_false, false_or] at h
    simp only [ilcLoop]
    rcases h with ⟨hcond, rfl⟩ | ⟨hstop, hmem⟩
    · rw [if_pos hcond]
      simp only [List.append_assoc, List.singleton_append, List.cons_append]
      exact (prefix_cons_cons _ _ _).isInfix
    · rw [if_neg hstop]
      exact (ih (i₀ + 1) i hmem).trans (List.suffix_append _ _).isInfix

/-- C8: in one run of the `iterate_location_choice` convergence loop,
iteration 1 never calls `update_shadow_prices`; `update_shadow_prices(i)` is
called exactly for the executed iterations `i ≥ 2` with shadow pricing
enabled and immediately precedes the re-run of iteration `i`; every executed
iteration records its realized choices via `set_choices`; per-iteration trace
files are written exactly for executed iterations when the process is the
locutor; and iteration `i` executes exactly when `1 ≤ i ≤ max_iterations`
and no earlier iteration both had shadow pricing enabled and passed
`check_fit`. -/
theorem iterate_location_choice_loop_behavior (usp locutor : Bool)
    (maxIterations : ℕ) (conv : ℕ → Bool) :
    (LCEvent.updateShadowPrices 1 ∉
      iterateLocationChoiceTrace usp locutor maxIterations conv) ∧
    (∀ i, LCEvent.updateShadowPrices i ∈
        iterateLocationChoiceTrace usp locutor maxIterations conv ↔
      usp = true ∧ 2 ≤ i ∧ LCEvent.runChoice i ∈
        iterateLocationChoiceTrace usp locutor maxIterations conv) ∧
    (∀ i, LCEvent.updateShadowPrices i ∈
        iterateLocationChoiceTrace usp locutor maxIterations conv →
      [LCEvent.updateShadowPrices i, LCEvent.runChoice i] <:+:
        iterateLocationChoiceTrace usp locutor maxIterations conv) ∧
    (∀ i, LCEvent.runChoice i ∈
        iterateLocationChoiceTrace usp locutor maxIterations conv ↔
      LCEvent.setChoices i ∈
        iterateLocationChoiceTrace usp locutor maxIterations conv) ∧
    (∀ i, LCEvent.writeTraceFiles i ∈
        iterateLocationChoiceTrace usp locutor maxIterations conv ↔
      locutor = true ∧ LCEvent.runChoice i ∈
        iterateLocationChoiceTrace usp locutor maxIterations conv) ∧
    (∀ i, LCEvent.runChoice i ∈
        iterateLocationChoiceTrace usp locutor maxIterations conv ↔
      1 ≤ i ∧ i ≤ maxIterations ∧
        ∀ j, 1 ≤ j → j < i → ¬(usp = true ∧ conv j = true)) := by
  unfold iterateLocationChoiceTrace
  have hrun : ∀ i, LCEvent.runChoice i ∈
      ilcLoop usp locutor conv maxIterations 1 ↔
      ilcRuns usp conv 1 maxIterations i :=
    fun i => runChoice_mem_ilcLoop usp locutor conv maxIterations 1 i
  refine ⟨?_, ?_, ?_, ?_, ?_, ?_⟩
  · intro h
    have := (updateShadowPrices_mem_ilcLoop usp locutor conv maxIterations 1 1).mp h
    omega
  · intro i
    rw [updateShadowPrices_mem_ilcLoop usp locutor conv maxIterations 1 i, hrun i]
    constructor
    · rintro ⟨h1, h2, h3⟩
      exact ⟨h1, by omega, h3⟩
    · rintro ⟨h1, h2, h3⟩
      exact ⟨h1, by omega, h3⟩
  · intro i
    exact ilcLoop_update_before_run usp locutor conv maxIterations 1 i
  · intro i
    rw [hrun i, setChoices_mem_ilcLoop usp locutor conv maxIterations 1 i]
  · intro i
    rw [writeTraceFiles_mem_ilcLoop usp locutor conv maxIterations 1 i, hrun i]
  · intro i
    rw [hrun i]
    unfold ilcRuns
    constructor
    · rintro ⟨h1, h2, h3⟩
      exact ⟨h1, by omega, h3⟩
    · rintro ⟨h1, h2, h3⟩
      exact ⟨h1, by omega, h3⟩

/-- Witness for `iterate_location_choice_loop_behavior` at a concrete loop
that converges at iteration 2 of 3. -/
theorem iterate_location_choice_loop_behavior_witness :
    LCEvent.updateShadowPrices 1 ∉
      iterateLocationChoiceTrace true true 3 (fun i => decide (i = 2)) ∧
    LCEvent.runChoice 3 ∉
      iterateLocationChoiceTrace true true 3 (fun i => decide (i = 2)) :=
  ⟨(iterate_location_choice_loop_behavior true true 3 (fun i => decide (i = 2))).1,
    fun hmem => by
      have h := ((iterate_location_choice_loop_behavior true true 3
        (fun i => decide (i = 2))).2.2.2.2.2 3).mp hmem
      exact h.2.2 2 (by omega) (by omega) ⟨rfl, by decide⟩⟩

/-! ### Theorems: Nested-logit utilities
(`activitysim/core/simulate.py`: `compute_nested_exp_utilities`,
`compute_nested_probabilities`, `compute_base_probabilities`; the nest
traversal `logit.each_nest` and the normalization `logit.utils_to_probs` are
modelled from the spec, their module not being part of this source slice.) -/

theorem dfLookup_append (l₁ l₂ : List (String × ℝ)) (k : String) :
    dfLookup (l₁ ++ l₂) k = (dfLookup l₁ k).or (dfLookup l₂ k) := by
  induction l₁ with
  | nil => simp [dfLookup]
  | cons e rest ih =>
    rcases e with ⟨k', v⟩
    by_cases h : k' = k
    · simp [dfLookup, h]
    · simp [dfLookup, h, ih]

theorem dfSet_of_lookup_none {nu : List (String × ℝ)} {k : String}
    (h : dfLookup nu k = none) (v : ℝ) : dfSet nu k v = nu ++ [(k, v)] := by
  induction nu with
  | nil => simp [dfSet]
  | cons e rest ih =>
    rcases e with ⟨k', v'⟩
    by_cases hk : k' = k
    · simp [dfLookup, hk] at h
    · simp only [dfLookup, if_neg hk] at h
      simp [dfSet, hk, ih h]

theorem dfLookup_eq_none_of_forall {l : List (String × ℝ)} {k : String}
    (h : ∀ e ∈ l, e.1 ≠ k) : dfLookup l k = none := by
  induction l with
  | nil => rfl
  | cons e rest ih =>
    rcases e with ⟨k', v⟩
    have hk : k' ≠ k := h (k', v) (List.mem_cons_self _ _)
    simp only [dfLookup, if_neg hk]
    exact ih fun e he => h e (List.mem_cons_of_mem _ he)

theorem NestSpec.name_mem_names : ∀ t : NestSpec, t.name ∈ t.names := by
  intro t
  cases t with
  | leaf n => simp [NestSpec.name, NestSpec.names]
  | node n c alts => simp [NestSpec.name, NestSpec.names]

theorem mem_namesList_of_mem {t : NestSpec} {ts : List NestSpec} (ht : t ∈ ts)
    {k : String} (hk : k ∈ t.names) : k ∈ namesList ts := by
  induction ts with
  | nil => cases ht
  | cons t' ts ih =>
    rcases List.mem_cons.mp ht with rfl | ht'
    · exact List.mem_append.mpr (Or.inl hk)
    · exact List.mem_append.mpr (Or.inr (ih ht'))

theorem subtreesProd_name_mem :
    ∀ (t : NestSpec) (p : ℝ) (tp : NestSpec × ℝ),
      tp ∈ subtreesProd t p → tp.1.name ∈ t.names := by
  intro t
  induction t using NestSpec.inductionOn with
  | hleaf n =>
    intro p tp h
    simp only [subtreesProd, List.mem_singleton] at h
    subst h
    simp [NestSpec.name, NestSpec.names]
  | hnode n c alts ih =>
    intro p tp h
    simp only [subtreesProd, List.mem_append, List.mem_singleton] at h
    rcases h with h | rfl
    · have hlist : ∀ (ts : List NestSpec), (∀ a ∈ ts, ∀ (q : ℝ) (tp' : NestSpec × ℝ),
          tp' ∈ subtreesProd a q → tp'.1.name ∈ a.names) →
          tp ∈ subtreesProdList ts (p * c) → tp.1.name ∈ namesList ts := by
        intro ts
        induction ts with
        | nil => intro _ h'; simp [subtreesProdList] at h'
        | cons a ts iht =>
          intro hIH h'
          rcases List.mem_append.mp h' with h' | h'
          · exact List.mem_append.mpr
              (Or.inl (hIH a (List.mem_cons_self _ _) (p * c) tp h'))
          · exact List.mem_append.mpr
              (Or.inr (iht (fun b hb => hIH b (List.mem_cons_of_mem _ hb)) h'))
      have := hlist alts (fun a ha => ih a ha) h
      simp [NestSpec.names]
      exact Or.inr this
    · simp [NestSpec.name, NestSpec.names]

theorem subtreesProdList_name_mem {ts : List NestSpec} {p : ℝ} {tp : NestSpec × ℝ}
    (h : tp ∈ subtreesProdList ts p) : tp.1.name ∈ namesList ts := by
  induction ts with
  | nil => simp [subtreesProdList] at h
  | cons a ts ih =>
    rcases List.mem_append.mp h with h' | h'
    · exact List.mem_append.mpr (Or.inl (subtreesProd_name_mem a p tp h'))
    · exact List.mem_append.mpr (Or.inr (ih h'))

theorem nestedExpEntriesList_cons (raw : String → ℝ) (t : NestSpec)
    (ts : List NestSpec) (p : ℝ) :
    nestedExpEntriesList raw (t :: ts) p =
      nestedExpEntries raw t p ++ nestedExpEntriesList raw ts p := by
  simp [nestedExpEntriesList, nestedExpEntries, subtreesProdList]

theorem nestedExpEntries_node (raw : String → ℝ) (n : String) (c : ℝ)
    (alts : List NestSpec) (p : ℝ) :
    nestedExpEntries raw (.node n c alts) p =
      nestedExpEntriesList raw alts (p * c) ++
        [(n, nestedExpUtil raw (.node n c alts) p)] := by
  simp [nestedExpEntries, nestedExpEntriesList, subtreesProd, NestSpec.name]

theorem dfLookup_nestedExpEntries_of_not_mem (raw : String → ℝ)
    {t : NestSpec} {p : ℝ} {k : String} (h : k ∉ t.names) :
    dfLookup (nestedExpEntries raw t p) k = none := by
  refine dfLookup_eq_none_of_forall ?_
  intro e he
  simp only [nestedExpEntries, List.mem_map] at he
  rcases he with ⟨tp, htp, rfl⟩
  intro hk
  exact h (hk ▸ subtreesProd_name_mem t p tp htp)

theorem dfLookup_nestedExpEntriesList_of_not_mem (raw : String → ℝ)
    {ts : List NestSpec} {p : ℝ} {k : String} (h : k ∉ namesList ts) :
    dfLookup (nestedExpEntriesList raw ts p) k = none := by
  refine dfLookup_eq_none_of_forall ?_
  intro e he
  simp only [nestedExpEntriesList, List.mem_map] at he
  rcases he with ⟨tp, htp, rfl⟩
  intro hk
  exact h (hk ▸ subtreesProdList_name_mem htp)

theorem dfLookup_nestedExpEntries_name (raw : String → ℝ)
    {t : NestSpec} (p : ℝ) (h : t.names.Nodup) :
    dfLookup (nestedExpEntries raw t p) t.name =
      some (nestedExpUtil raw t p) := by
  cases t with
  | leaf n => simp [nestedExpEntries, subtreesProd, dfLookup, NestSpec.name]
  | node n c alts =>
    rw [nestedExpEntries_node, dfLookup_append]
    have hn : n ∉ namesList alts := by
      have := (List.nodup_cons.mp (by simpa [NestSpec.names] using h)).1
      exact this
    rw [dfLookup_nestedExpEntriesList_of_not_mem raw (by simpa [NestSpec.name] using hn)]
    simp [dfLookup, NestSpec.name]

theorem dfLookup_nestedExpEntriesList_name (raw : String → ℝ)
    {ts : List NestSpec} (p : ℝ) (h : (namesList ts).Nodup)
    {a : NestSpec} (ha : a ∈ ts) :
    dfLookup (nestedExpEntriesList raw ts p) a.name =
      some (nestedExpUtil raw a p) := by
  induction ts with
  | nil => cases ha
  | cons t ts ih =>
    have hsplit := List.nodup_append.mp (by simpa [namesList] using h)
    rw [nestedExpEntriesList_cons, dfLookup_append]
    rcases List.mem_cons.mp ha with rfl | ha'
    · rw [dfLookup_nestedExpEntries_name raw p hsplit.1]
      rfl
    · have hnot : a.name ∉ t.names := by
        intro hmem
        exact hsplit.2.2 hmem
          (mem_namesList_of_mem ha' (NestSpec.name_mem_names a))
      rw [dfLookup_nestedExpEntries_of_not_mem raw hnot, ih hsplit.2.1 ha']
      rfl

theorem dfSum_eq_nestedExpUtilSum (raw : String → ℝ) {nu : List (String × ℝ)}
    {p : ℝ} : ∀ {ts : List NestSpec},
    (∀ a ∈ ts, dfCol nu a.name = nestedExpUtil raw a p) →
    dfSum nu (ts.map NestSpec.name) = nestedExpUtilSum raw ts p := by
  intro ts
  induction ts with
  | nil => intro _; simp [dfSum, nestedExpUtilSum]
  | cons a ts ih =>
    intro h
    have ha := h a (List.mem_cons_self _ _)
    have hrest := ih fun b hb => h b (List.mem_cons_of_mem _ hb)
    simp only [dfSum, List.map_cons, List.map_map, List.sum_cons] at *
    rw [ha] at *
    simp [nestedExpUtilSum, ← hrest]

/-- Main invariant of the `compute_nested_exp_utilities` loop: folding the
assignment step over the post-order traversal of a subtree (whose column
names are fresh for the accumulated frame) appends exactly the entries the
recursive characterization predicts. -/
theorem cneu_fold (raw : String → ℝ) :
    ∀ (t : NestSpec) (p : ℝ) (anc : List String) (nu₀ : List (String × ℝ)),
      t.names.Nodup →
      (∀ k ∈ t.names, dfLookup nu₀ k = none) →
      (eachNestAux true p anc t).foldl (cneuStep raw) nu₀ =
        nu₀ ++ nestedExpEntries raw t p := by
  intro t
  induction t using NestSpec.inductionOn with
  | hleaf n =>
    intro p anc nu₀ hnodup hfresh
    have hf : dfLookup nu₀ n = none := hfresh n (by simp [NestSpec.names])
    simp only [eachNestAux, List.foldl_cons, List.foldl_nil, cneuStep, if_pos rfl]
    rw [dfSet_of_lookup_none hf]
    simp [nestedExpEntries, subtreesProd, nestedExpUtil, NestSpec.name]
  | hnode n c alts ihAll =>
    intro p anc nu₀ hnodup hfresh
    have hnames : (NestSpec.node n c alts).names = n :: namesList alts := rfl
    rw [hnames] at hnodup hfresh
    have hn_not : n ∉ namesList alts := (List.nodup_cons.mp hnodup).1
    have hnd_alts : (namesList alts).Nodup := (List.nodup_cons.mp hnodup).2
    have hfresh_alts : ∀ k ∈ namesList alts, dfLookup nu₀ k = none :=
      fun k hk => hfresh k (List.mem_cons_of_mem _ hk)
    have hfold : ∀ (ts : List NestSpec),
        (∀ a ∈ ts, ∀ (q : ℝ) (anc' : List String) (nu : List (String × ℝ)),
          a.names.Nodup → (∀ k ∈ a.names, dfLookup nu k = none) →
          (eachNestAux true q anc' a).foldl (cneuStep raw) nu =
            nu ++ nestedExpEntries raw a q) →
        (namesList ts).Nodup →
        ∀ nu, (∀ k ∈ namesList ts, dfLookup nu k = none) →
        (eachNestListAux true (p * c) (anc ++ [n]) ts).foldl (cneuStep raw) nu =
          nu ++ nestedExpEntriesList raw ts (p * c) := by
      intro ts
      induction ts with
      | nil =>
        intro _ _ nu _
        simp [eachNestListAux, nestedExpEntriesList, subtreesProdList]
      | cons a ts iht =>
        intro hIH hnd nu hfr
        have hsplit := List.nodup_append.mp (by simpa [namesList] using hnd)
        simp only [eachNestListAux, List.foldl_append]
        rw [hIH a (List.mem_cons_self _ _) (p * c) (anc ++ [n]) nu hsplit.1
          (fun k hk => hfr k (List.mem_append.mpr (Or.inl hk)))]
        rw [iht (fun b hb => hIH b (List.mem_cons_of_mem _ hb)) hsplit.2.1
          (nu ++ nestedExpEntries raw a (p * c)) ?_]
        · rw [nestedExpEntriesList_cons, List.append_assoc]
        · intro k hk
          rw [dfLookup_append,
            hfr k (List.mem_append.mpr (Or.inr hk)),
            dfLookup_nestedExpEntries_of_not_mem raw (fun hmem => hsplit.2.2 hmem hk)]
          rfl
    have hkids := hfold alts (fun a ha => ihAll a ha) hnd_alts nu₀ hfresh_alts
    show ((eachNestListAux true (p * c) (anc ++ [n]) alts ++
        [Nest.mk n false c (p * c) (alts.map NestSpec.name) (anc ++ [n])]).foldl
          (cneuStep raw) nu₀) = _
    rw [List.foldl_append, hkids, List.foldl_cons, List.foldl_nil]
    have hcol : ∀ a ∈ alts,
        dfCol (nu₀ ++ nestedExpEntriesList raw alts (p * c)) a.name =
          nestedExpUtil raw a (p * c) := by
      intro a ha
      unfold dfCol
      rw [dfLookup_append, hfresh_alts a.name (mem_namesList_of_mem ha (NestSpec.name_mem_names a)),
        dfLookup_nestedExpEntriesList_name raw (p * c) hnd_alts ha]
      rfl
    have hsum : dfSum (nu₀ ++ nestedExpEntriesList raw alts (p * c))
        (alts.map NestSpec.name) = nestedExpUtilSum raw alts (p * c) :=
      dfSum_eq_nestedExpUtilSum raw hcol
    have hsetfresh : dfLookup (nu₀ ++ nestedExpEntriesList raw alts (p * c)) n = none := by
      rw [dfLookup_append, hfresh n (List.mem_cons_self _ _),
        dfLookup_nestedExpEntriesList_of_not_mem raw hn_not]
      rfl
    simp only [cneuStep]
    rw [dfSet_of_lookup_none hsetfresh]
    rw [nestedExpEntries_node]
    simp only [Bool.false_eq_true, if_false, hsum, List.append_assoc]
    rfl

/-- The spec-modelled traversal with `post_order=True` visits names in
post-order: children before parents. -/
theorem eachNestAux_map_name :
    ∀ (t : NestSpec) (p : ℝ) (anc : List String),
      (eachNestAux true p anc t).map Nest.name = postOrderNames t := by
  intro t
  induction t using NestSpec.inductionOn with
  | hleaf n => intro p anc; simp [eachNestAux, postOrderNames]
  | hnode n c alts ih =>
    intro p anc
    have hlist : ∀ (ts : List NestSpec),
        (∀ a ∈ ts, ∀ (q : ℝ) (anc' : List String),
          (eachNestAux true q anc' a).map Nest.name = postOrderNames a) →
        (eachNestListAux true (p * c) (anc ++ [n]) ts).map Nest.name =
          postOrderNamesList ts := by
      intro ts
      induction ts with
      | nil => intro _; simp [eachNestListAux, postOrderNamesList]
      | cons a ts iht =>
        intro hIH
        simp only [eachNestListAux, List.map_append, postOrderNamesList]
        rw [hIH a (List.mem_cons_self _ _), iht (fun b hb => hIH b (List.mem_cons_of_mem _ hb))]
    show ((eachNestListAux true (p * c) (anc ++ [n]) alts ++
        [Nest.mk n false c (p * c) (alts.map NestSpec.name) (anc ++ [n])]).map
          Nest.name) = _
    rw [List.map_append, hlist alts (fun a ha => ih a ha)]
    simp [postOrderNames]

/-- Every subtree's predicted value can be looked up in the predicted entry
table under its own name, provided names are unique. -/
theorem dfLookup_nestedExpEntries_subtree (raw : String → ℝ) :
    ∀ (t : NestSpec) (p : ℝ), t.names.Nodup →
      ∀ tp ∈ subtreesProd t p,
        dfLookup (nestedExpEntries raw t p) tp.1.name =
          some (nestedExpUtil raw tp.1 tp.2) := by
  intro t
  induction t using NestSpec.inductionOn with
  | hleaf n =>
    intro p _ tp htp
    simp only [subtreesProd, List.mem_singleton] at htp
    subst htp
    simp [nestedExpEntries, subtreesProd, dfLookup, NestSpec.name]
  | hnode n c alts ih =>
    intro p hnodup tp htp
    have hn_not : n ∉ namesList alts :=
      (List.nodup_cons.mp (by simpa [NestSpec.names] using hnodup)).1
    have hnd_alts : (namesList alts).Nodup :=
      (List.nodup_cons.mp (by simpa [NestSpec.names] using hnodup)).2
    have hlist : ∀ (ts : List NestSpec),
        (∀ a ∈ ts, ∀ (q : ℝ), a.names.Nodup →
          ∀ tp' ∈ subtreesProd a q,
            dfLookup (nestedExpEntries raw a q) tp'.1.name =
              some (nestedExpUtil raw tp'.1 tp'.2)) →
        ∀ (q : ℝ), (namesList ts).Nodup →
        ∀ tp' ∈ subtreesProdList ts q,
          dfLookup (nestedExpEntriesList raw ts q) tp'.1.name =
            some (nestedExpUtil raw tp'.1 tp'.2) := by
      intro ts
      induction ts with
      | nil => intro _ q _ tp' htp'; simp [subtreesProdList] at htp'
      | cons a ts iht =>
        intro hIH q hnd tp' htp'
        have hsplit := List.nodup_append.mp (by simpa [namesList] using hnd)
        rw [nestedExpEntriesList_cons, dfLookup_append]
        rcases List.mem_append.mp htp' with h' | h'
        · rw [hIH a (List.mem_cons_self _ _) q hsplit.1 tp' h']
          rfl
        · have hnot : tp'.1.name ∉ a.names := by
            intro hmem
            exact hsplit.2.2 hmem (subtreesProdList_name_mem h')
          rw [dfLookup_nestedExpEntries_of_not_mem raw hnot,
            iht (fun b hb => hIH b (List.mem_cons_of_mem _ hb)) q hsplit.2.1 tp' h']
          rfl
    simp only [subtreesProd, List.mem_append, List.mem_singleton] at htp
    rw [nestedExpEntries_node, dfLookup_append]
    rcases htp with h' | rfl
    · rw [hlist alts (fun a ha q hnd => ih a ha q hnd) (p * c) hnd_alts tp h']
      rfl
    · rw [dfLookup_nestedExpEntriesList_of_not_mem raw
        (by simpa [NestSpec.name] using hn_not)]
      simp [dfLookup, NestSpec.name]

/-- C1: `compute_nested_exp_utilities` visits the nest tree in post-order
(children before parents), and — whenever the nest names are distinct, as
pandas column labels are — the column it assigns for each node of the tree
holds `exp(raw_utility / product of ancestor coefficients)` for a leaf and
`exp(coefficient · ln(sum of the children's columns))` for an internal node,
i.e. exactly the value of the recursive characterization in which every
node's value depends only on its children's values. -/
theorem compute_nested_exp_utilities_correct (raw : String → ℝ) (spec : NestSpec)
    (h : spec.names.Nodup) :
    ((eachNest spec true).map Nest.name = postOrderNames spec) ∧
    ∀ tp ∈ subtreesProd spec 1,
      dfLookup (computeNestedExpUtilities raw spec) tp.1.name =
        some (nestedExpUtil raw tp.1 tp.2) := by
  constructor
  · exact eachNestAux_map_name spec 1 []
  · intro tp htp
    have hfold := cneu_fold raw spec 1 [] [] h (fun k _ => rfl)
    unfold computeNestedExpUtilities eachNest
    rw [hfold, List.nil_append]
    exact dfLookup_nestedExpEntries_subtree raw spec 1 h tp htp

/-- Witness for `compute_nested_exp_utilities_correct` at `exNestTree`. -/
theorem compute_nested_exp_utilities_correct_witness :
    exNestTree.names.Nodup ∧
    (((eachNest exNestTree true).map Nest.name = postOrderNames exNestTree) ∧
      ∀ tp ∈ subtreesProd exNestTree 1,
        dfLookup (computeNestedExpUtilities exRaw exNestTree) tp.1.name =
          some (nestedExpUtil exRaw tp.1 tp.2)) :=
  ⟨by decide, compute_nested_exp_utilities_correct exRaw exNestTree (by decide)⟩

/-- C4: the chunked-execution row cost for `simple_simulate` is the chooser
column count plus `spec_row_count + 2·alternative_count` for MNL and
`spec_row_count + 2·alternative_count + 2·nest_count − 1` for NL (an exact
integer identity — the natural subtraction never clamps since every nest tree
has at least one node); the logsum-only variant uses
`spec_row_count + alternative_count` for MNL and
`spec_row_count + alternative_count + nest_count` for NL. -/
theorem simple_simulate_row_cost_formulas (chooserCols specRows specCols : ℕ)
    (t : NestSpec) :
    simpleSimulateRowSize chooserCols specRows specCols none =
      chooserCols + (specRows + 2 * specCols) ∧
    (simpleSimulateRowSize chooserCols specRows specCols (some t) : ℤ) =
      (chooserCols : ℤ) + ((specRows : ℤ) + 2 * (specCols : ℤ) +
        2 * (t.countNests : ℤ) - 1) ∧
    simpleSimulateLogsumsRowSize chooserCols specRows specCols none =
      chooserCols + (specRows + specCols) ∧
    simpleSimulateLogsumsRowSize chooserCols specRows specCols (some t) =
      chooserCols + (specRows + specCols + t.countNests) := by
  have h1 := t.one_le_countNests
  refine ⟨rfl, ?_, rfl, rfl⟩
  unfold simpleSimulateRowSize simpleSimulateExtraColumns
  push_cast
  omega

theorem foldl_append_blocks {β : Type} (g : β → List (String × ℝ)) :
    ∀ (l : List β) (b₀ : List (String × ℝ)),
      l.foldl (fun acc x => acc ++ g x) b₀ = b₀ ++ (l.map g).flatten := by
  intro l
  induction l with
  | nil => intro b₀; simp
  | cons x l ih =>
    intro b₀
    simp only [List.foldl_cons, List.map_cons, List.flatten_cons, ih, List.append_assoc]

theorem foldl_dfSet_map {β : Type} (key : β → String) (val : β → ℝ) :
    ∀ (rs : List β) (b₀ : List (String × ℝ)),
      (rs.map key).Nodup →
      (∀ r ∈ rs, dfLookup b₀ (key r) = none) →
      rs.foldl (fun b r => dfSet b (key r) (val r)) b₀ =
        b₀ ++ rs.map (fun r => (key r, val r)) := by
  intro rs
  induction rs with
  | nil => intro b₀ _ _; simp
  | cons r rs ih =>
    intro b₀ hnd hf
    have hndc := List.nodup_cons.mp (by simpa only [List.map_cons] using hnd)
    simp only [List.foldl_cons]
    rw [dfSet_of_lookup_none (hf r (List.mem_cons_self _ _))]
    rw [ih (b₀ ++ [(key r, val r)]) hndc.2 ?_]
    · simp
    · intro r' hr'
      rw [dfLookup_append, hf r' (List.mem_cons_of_mem _ hr')]
      have hne : key r ≠ key r' := by
        intro he
        exact hndc.1 (he ▸ List.mem_map_of_mem key hr')
      simp [dfLookup, hne]

theorem dfLookup_map_self {f : String → ℝ} :
    ∀ {cols : List String} {x : String}, x ∈ cols →
      dfLookup (cols.map (fun a => (a, f a))) x = some (f x) := by
  intro cols
  induction cols with
  | nil => intro x hx; cases hx
  | cons c cols ih =>
    intro x hx
    by_cases h : c = x
    · subst h
      simp [dfLookup]
    · rcases List.mem_cons.mp hx with rfl | hx'
      · exact absurd rfl h
      · simp only [List.map_cons, dfLookup, if_neg h]
        exact ih hx'

theorem dfLookup_map_of_not_mem {f : String → ℝ} {cols : List String} {x : String}
    (hx : x ∉ cols) :
    dfLookup (cols.map (fun a => (a, f a))) x = none := by
  refine dfLookup_eq_none_of_forall ?_
  intro e he
  rcases List.mem_map.mp he with ⟨a, ha, rfl⟩
  intro hax
  exact hx (hax ▸ ha)

/-- The node blocks of the pre-order traversal are exactly the recursive
conditional-probability entries. -/
theorem cnp_blocks (v : String → ℝ) :
    ∀ (t : NestSpec) (p : ℝ) (anc : List String),
      (((eachNestAux false p anc t).filter (fun r => !r.isLeafNode)).map
        (fun r => utilsToProbsExp v r.alternatives)).flatten =
        condProbEntries v t := by
  intro t
  induction t using NestSpec.inductionOn with
  | hleaf n => intro p anc; simp [eachNestAux, condProbEntries]
  | hnode n c alts ih =>
    intro p anc
    have hlist : ∀ (ts : List NestSpec),
        (∀ a ∈ ts, ∀ (q : ℝ) (anc' : List String),
          (((eachNestAux false q anc' a).filter (fun r => !r.isLeafNode)).map
            (fun r => utilsToProbsExp v r.alternatives)).flatten =
            condProbEntries v a) →
        ∀ (q : ℝ) (anc' : List String),
        (((eachNestListAux false q anc' ts).filter (fun r => !r.isLeafNode)).map
          (fun r => utilsToProbsExp v r.alternatives)).flatten =
          condProbEntriesList v ts := by
      intro ts
      induction ts with
      | nil => intro _ q anc'; simp [eachNestListAux, condProbEntriesList]
      | cons a ts iht =>
        intro hIH q anc'
        simp only [eachNestListAux, List.filter_append, List.map_append,
          List.flatten_append, condProbEntriesList]
        rw [hIH a (List.mem_cons_self _ _) q anc',
          iht (fun b hb => hIH b (List.mem_cons_of_mem _ hb)) q anc']
    show ((((Nest.mk n false c (p * c) (alts.map NestSpec.name) (anc ++ [n])) ::
        eachNestListAux false (p * c) (anc ++ [n]) alts).filter
          (fun r => !r.isLeafNode)).map
            (fun r => utilsToProbsExp v r.alternatives)).flatten = _
    simp only [List.filter_cons, Bool.not_false, if_true, ite_true, List.map_cons,
      List.flatten_cons, condProbEntries]
    rw [hlist alts (fun a ha => ih a ha) (p * c) (anc ++ [n])]

/-- `compute_nested_probabilities` produces exactly the recursive
conditional-probability entries. -/
theorem computeNestedProbabilities_eq (v : String → ℝ) (spec : NestSpec) :
    computeNestedProbabilities v spec = condProbEntries v spec := by
  unfold computeNestedProbabilities eachNest
  refine (foldl_append_blocks (fun nest : Nest => utilsToProbsExp v nest.alternatives)
    ((eachNestAux false 1 [] spec).filter (fun nest => !nest.isLeafNode)) []).trans ?_
  rw [List.nil_append, cnp_blocks v spec 1 []]

/-- The leaf records of the pre-order traversal are the leaves with their
ancestor paths. -/
theorem leafRecords_eq :
    ∀ (t : NestSpec) (p : ℝ) (anc : List String),
      ((eachNestAux false p anc t).filter (fun r => r.isLeafNode)).map
        (fun r => (r.name, r.ancestors)) = leavesWithAnc t anc := by
  intro t
  induction t using NestSpec.inductionOn with
  | hleaf n => intro p anc; simp [eachNestAux, leavesWithAnc]
  | hnode n c alts ih =>
    intro p anc
    have hlist : ∀ (ts : List NestSpec),
        (∀ a ∈ ts, ∀ (q : ℝ) (anc' : List String),
          ((eachNestAux false q anc' a).filter (fun r => r.isLeafNode)).map
            (fun r => (r.name, r.ancestors)) = leavesWithAnc a anc') →
        ∀ (q : ℝ) (anc' : List String),
        ((eachNestListAux false q anc' ts).filter (fun r => r.isLeafNode)).map
          (fun r => (r.name, r.ancestors)) = leavesWithAncList ts anc' := by
      intro ts
      induction ts with
      | nil => intro _ q anc'; simp [eachNestListAux, leavesWithAncList]
      | cons a ts iht =>
        intro hIH q anc'
        simp only [eachNestListAux, List.filter_append, List.map_append,
          leavesWithAncList]
        rw [hIH a (List.mem_cons_self _ _) q anc',
          iht (fun b hb => hIH b (List.mem_cons_of_mem _ hb)) q anc']
    show (((Nest.mk n false c (p * c) (alts.map NestSpec.name) (anc ++ [n])) ::
        eachNestListAux false (p * c) (anc ++ [n]) alts).filter
          (fun r => r.isLeafNode)).map (fun r => (r.name, r.ancestors)) = _
    simp only [List.filter_cons]
    rw [if_neg (by simp)]
    exact hlist alts (fun a ha => ih a ha) (p * c) (anc ++ [n])

/-- First components of the leaves-with-ancestors list are the leaf names. -/
theorem leavesWithAnc_map_fst :
    ∀ (t : NestSpec) (anc : List String),
      (leavesWithAnc t anc).map Prod.fst = leafNames t := by
  intro t
  induction t using NestSpec.inductionOn with
  | hleaf n => intro anc; simp [leavesWithAnc, leafNames]
  | hnode n c alts ih =>
    intro anc
    have hlist : ∀ (ts : List NestSpec),
        (∀ a ∈ ts, ∀ anc', (leavesWithAnc a anc').map Prod.fst = leafNames a) →
        ∀ anc', (leavesWithAncList ts anc').map Prod.fst = leafNamesList ts := by
      intro ts
      induction ts with
      | nil => intro _ anc'; simp [leavesWithAncList, leafNamesList]
      | cons a ts iht =>
        intro hIH anc'
        simp only [leavesWithAncList, List.map_append, leafNamesList]
        rw [hIH a (List.mem_cons_self _ _) anc',
          iht (fun b hb => hIH b (List.mem_cons_of_mem _ hb)) anc']
    exact hlist alts (fun a ha => ih a ha) (anc ++ [n])

/-- Leaf names form a sublist of all names. -/
theorem leafNames_sublist : ∀ t : NestSpec, List.Sublist (leafNames t) t.names := by
  intro t
  induction t using NestSpec.inductionOn with
  | hleaf n => simp [leafNames, NestSpec.names]
  | hnode n c alts ih =>
    have hlist : ∀ (ts : List NestSpec),
        (∀ a ∈ ts, List.Sublist (leafNames a) a.names) →
        List.Sublist (leafNamesList ts) (namesList ts) := by
      intro ts
      induction ts with
      | nil => intro _; simp [leafNamesList, namesList]
      | cons a ts iht =>
        intro hIH
        exact List.Sublist.append (hIH a (List.mem_cons_self _ _))
          (iht fun b hb => hIH b (List.mem_cons_of_mem _ hb))
    exact (hlist alts ih).cons n

/-- Prefixing the initial ancestor path shifts every recorded path. -/
theorem leavesWithAnc_shift :
    ∀ (t : NestSpec) (anc : List String),
      leavesWithAnc t anc =
        (leavesWithAnc t []).map (fun la => (la.1, anc ++ la.2)) := by
  intro t
  induction t using NestSpec.inductionOn with
  | hleaf n => intro anc; simp [leavesWithAnc]
  | hnode n c alts ih =>
    intro anc
    have hlist : ∀ (ts : List NestSpec),
        (∀ a ∈ ts, ∀ anc', leavesWithAnc a anc' =
          (leavesWithAnc a []).map (fun la => (la.1, anc' ++ la.2))) →
        ∀ anc', leavesWithAncList ts anc' =
          (leavesWithAncList ts []).map (fun la => (la.1, anc' ++ la.2)) := by
      intro ts
      induction ts with
      | nil => intro _ anc'; simp [leavesWithAncList]
      | cons a ts iht =>
        intro hIH anc'
        simp only [leavesWithAncList, List.map_append]
        rw [hIH a (List.mem_cons_self _ _) anc',
          iht (fun b hb => hIH b (List.mem_cons_of_mem _ hb)) anc']
    show leavesWithAncList alts (anc ++ [n]) =
      (leavesWithAncList alts ([] ++ [n])).map (fun la => (la.1, anc ++ la.2))
    rw [hlist alts (fun a ha anc' => ih a ha anc') (anc ++ [n]),
      hlist alts (fun a ha anc' => ih a ha anc') ([] ++ [n])]
    simp [List.map_map, Function.comp]

/-- The list version of `leavesWithAnc_shift`. -/
theorem leavesWithAncList_shift (ts : List NestSpec) (anc : List String) :
    leavesWithAncList ts anc =
      (leavesWithAncList ts []).map (fun la => (la.1, anc ++ la.2)) := by
  induction ts with
  | nil => simp [leavesWithAncList]
  | cons a ts iht =>
    simp only [leavesWithAncList, List.map_append]
    rw [leavesWithAnc_shift a anc, iht]

/-- A leaf's local path starts with the subtree's root name. -/
theorem leavesWithAnc_head (t : NestSpec) :
    ∀ la ∈ leavesWithAnc t [], ∃ rest, la.2 = t.name :: rest := by
  cases t with
  | leaf n =>
    intro la hla
    simp only [leavesWithAnc, List.nil_append, List.mem_singleton] at hla
    exact ⟨[], by simp [hla, NestSpec.name]⟩
  | node n c alts =>
    intro la hla
    have : leavesWithAnc (.node n c alts) [] =
        (leavesWithAncList alts []).map (fun la => (la.1, [n] ++ la.2)) := by
      show leavesWithAncList alts ([] ++ [n]) = _
      rw [leavesWithAncList_shift alts ([] ++ [n])]
      simp
    rw [this] at hla
    rcases List.mem_map.mp hla with ⟨la', _, rfl⟩
    exact ⟨la'.2, rfl⟩

/-- Keys of the conditional-probability entries are names of the tree. -/
theorem condProbEntries_key_mem (v : String → ℝ) :
    ∀ (t : NestSpec), ∀ e ∈ condProbEntries v t, e.1 ∈ t.names := by
  intro t
  induction t using NestSpec.inductionOn with
  | hleaf n => intro e he; simp [condProbEntries] at he
  | hnode n c alts ih =>
    intro e he
    have hlist : ∀ (ts : List NestSpec),
        (∀ a ∈ ts, ∀ e' ∈ condProbEntries v a, e'.1 ∈ a.names) →
        ∀ e' ∈ condProbEntriesList v ts, e'.1 ∈ namesList ts := by
      intro ts
      induction ts with
      | nil => intro _ e' he'; simp [condProbEntriesList] at he'
      | cons a ts iht =>
        intro hIH e' he'
        rcases List.mem_append.mp he' with h' | h'
        · exact List.mem_append.mpr (Or.inl (hIH a (List.mem_cons_self _ _) e' h'))
        · exact List.mem_append.mpr
            (Or.inr (iht (fun b hb => hIH b (List.mem_cons_of_mem _ hb)) e' h'))
    rcases List.mem_append.mp he with h' | h'
    · rcases List.mem_map.mp h' with ⟨a, ha, rfl⟩
      rcases List.mem_map.mp ha with ⟨b, hb, rfl⟩
      exact List.mem_cons_of_mem _
        (mem_namesList_of_mem hb (NestSpec.name_mem_names b))
    · exact List.mem_cons_of_mem _ (hlist alts (fun a ha => ih a ha) e h')

theorem dfLookup_condProbEntries_of_not_mem (v : String → ℝ)
    {t : NestSpec} {k : String} (h : k ∉ t.names) :
    dfLookup (condProbEntries v t) k = none := by
  refine dfLookup_eq_none_of_forall ?_
  intro e he hk
  exact h (hk ▸ condProbEntries_key_mem v t e he)

/-- Non-root names belong to the tree's name list. -/
theorem tailNames_mem_names {t : NestSpec} {x : String} (h : x ∈ tailNames t) :
    x ∈ t.names := by
  cases t with
  | leaf n => simp [tailNames] at h
  | node n c alts => exact List.mem_cons_of_mem _ (by simpa [tailNames] using h)

/-- Keys of the child/sibling pairs are non-root names. -/
theorem childCondPairs_key_tail :
    ∀ (t : NestSpec), ∀ pr ∈ childCondPairs t, pr.1 ∈ tailNames t := by
  intro t
  induction t using NestSpec.inductionOn with
  | hleaf n => intro pr hpr; simp [childCondPairs] at hpr
  | hnode n c alts ih =>
    intro pr hpr
    have hlist : ∀ (ts : List NestSpec),
        (∀ a ∈ ts, ∀ pr' ∈ childCondPairs a, pr'.1 ∈ tailNames a) →
        ∀ pr' ∈ childCondPairsList ts, pr'.1 ∈ namesList ts := by
      intro ts
      induction ts with
      | nil => intro _ pr' hpr'; simp [childCondPairsList] at hpr'
      | cons a ts iht =>
        intro hIH pr' hpr'
        rcases List.mem_append.mp hpr' with h' | h'
        · exact List.mem_append.mpr (Or.inl
            (tailNames_mem_names (hIH a (List.mem_cons_self _ _) pr' h')))
        · exact List.mem_append.mpr
            (Or.inr (iht (fun b hb => hIH b (List.mem_cons_of_mem _ hb)) pr' h'))
    rcases List.mem_append.mp hpr with h' | h'
    · rcases List.mem_map.mp h' with ⟨a, ha, rfl⟩
      exact by simpa [tailNames] using mem_namesList_of_mem ha (NestSpec.name_mem_names a)
    · exact by simpa [tailNames] using hlist alts (fun a ha => ih a ha) pr h'

/-- Pairs of a member subtree are pairs of the sibling list. -/
theorem mem_childCondPairsList_of_mem {a : NestSpec} {ts : List NestSpec}
    (ha : a ∈ ts) {pr : String × List String} (hpr : pr ∈ childCondPairs a) :
    pr ∈ childCondPairsList ts := by
  induction ts with
  | nil => cases ha
  | cons b ts ih =>
    rcases List.mem_cons.mp ha with rfl | ha'
    · exact List.mem_append.mpr (Or.inl hpr)
    · exact List.mem_append.mpr (Or.inr (ih ha'))

/-- With distinct names, a non-root name of a tree differs from its root
name. -/
theorem tail_ne_own_root {t : NestSpec} (hnd : t.names.Nodup) {x : String}
    (hx : x ∈ tailNames t) : x ≠ t.name := by
  cases t with
  | leaf m => simp [tailNames] at hx
  | node m c alts =>
    intro heq
    have hm : m ∉ namesList alts :=
      (List.nodup_cons.mp (by simpa [NestSpec.names] using hnd)).1
    have hx' : x ∈ namesList alts := by simpa [tailNames] using hx
    rw [show (NestSpec.node m c alts).name = m from rfl] at heq
    exact hm (heq ▸ hx')

/-- In a sibling list with globally distinct names, a non-root name of one
member never equals the root name of any member. -/
theorem tail_ne_root_of_nodup :
    ∀ (ts : List NestSpec), (namesList ts).Nodup →
      ∀ a ∈ ts, ∀ b ∈ ts, ∀ x ∈ tailNames a, x ≠ b.name := by
  intro ts
  induction ts with
  | nil => intro _ a ha; cases ha
  | cons c ts ih =>
    intro hnd a ha b hb x hx heq
    have hsplit := List.nodup_append.mp (by simpa [namesList] using hnd)
    rcases List.mem_cons.mp ha with rfl | ha' <;> rcases List.mem_cons.mp hb with rfl | hb'
    · exact tail_ne_own_root hsplit.1 hx heq
    · exact hsplit.2.2 (tailNames_mem_names hx)
        (heq ▸ mem_namesList_of_mem hb' (NestSpec.name_mem_names b))
    · exact hsplit.2.2 (heq ▸ NestSpec.name_mem_names b)
        (mem_namesList_of_mem ha' (tailNames_mem_names hx))
    · exact ih hsplit.2.1 a ha' b hb' x hx heq

/-- Keys of the pairs of a sibling list are names of the sibling list. -/
theorem childCondPairsList_key_mem {ts : List NestSpec}
    {pr : String × List String} (hpr : pr ∈ childCondPairsList ts) :
    pr.1 ∈ namesList ts := by
  induction ts with
  | nil => simp [childCondPairsList] at hpr
  | cons a ts ih =>
    rcases List.mem_append.mp hpr with h' | h'
    · exact List.mem_append.mpr (Or.inl
        (tailNames_mem_names (childCondPairs_key_tail a pr h')))
    · exact List.mem_append.mpr (Or.inr (ih h'))

/-- Every pair of a sibling list comes from one of its members. -/
theorem exists_of_mem_childCondPairsList {ts : List NestSpec}
    {pr : String × List String} (hpr : pr ∈ childCondPairsList ts) :
    ∃ a ∈ ts, pr ∈ childCondPairs a := by
  induction ts with
  | nil => simp [childCondPairsList] at hpr
  | cons a ts ih =>
    rcases List.mem_append.mp hpr with h' | h'
    · exact ⟨a, List.mem_cons_self _ _, h'⟩
    · rcases ih h' with ⟨b, hb, hb'⟩
      exact ⟨b, List.mem_cons_of_mem _ hb, hb'⟩

/-- Conditional probabilities can be looked up in the entry table: with
distinct nest names, the entry of any non-root node is its value normalized
against its sibling group. -/
theorem dfLookup_condProbEntries (v : String → ℝ) :
    ∀ (t : NestSpec), t.names.Nodup →
      ∀ pr ∈ childCondPairs t,
        dfLookup (condProbEntries v t) pr.1 =
          some (v pr.1 / (pr.2.map v).sum) := by
  intro t
  induction t using NestSpec.inductionOn with
  | hleaf n => intro _ pr hpr; simp [childCondPairs] at hpr
  | hnode n c alts ih =>
    intro hnodup pr hpr
    have hnd_alts : (namesList alts).Nodup :=
      (List.nodup_cons.mp (by simpa [NestSpec.names] using hnodup)).2
    have hlist : ∀ (ts : List NestSpec),
        (∀ a ∈ ts, a.names.Nodup →
          ∀ pr' ∈ childCondPairs a,
            dfLookup (condProbEntries v a) pr'.1 =
              some (v pr'.1 / (pr'.2.map v).sum)) →
        (namesList ts).Nodup →
        ∀ pr' ∈ childCondPairsList ts,
          dfLookup (condProbEntriesList v ts) pr'.1 =
            some (v pr'.1 / (pr'.2.map v).sum) := by
      intro ts
      induction ts with
      | nil => intro _ _ pr' hpr'; simp [childCondPairsList] at hpr'
      | cons a ts iht =>
        intro hIH hnd pr' hpr'
        have hsplit := List.nodup_append.mp (by simpa [namesList] using hnd)
        show dfLookup (condProbEntries v a ++ condProbEntriesList v ts) pr'.1 = _
        rw [dfLookup_append]
        rcases List.mem_append.mp hpr' with h' | h'
        · rw [hIH a (List.mem_cons_self _ _) hsplit.1 pr' h']
          rfl
        · have hnot : pr'.1 ∉ a.names := by
            intro hmem
            exact hsplit.2.2 hmem (childCondPairsList_key_mem h')
          rw [dfLookup_condProbEntries_of_not_mem v hnot,
            iht (fun b hb => hIH b (List.mem_cons_of_mem _ hb)) hsplit.2.1 pr' h']
          rfl
    show dfLookup (utilsToProbsExp v (alts.map NestSpec.name) ++
      condProbEntriesList v alts) pr.1 = _
    rw [dfLookup_append]
    rcases List.mem_append.mp hpr with h' | h'
    · rcases List.mem_map.mp h' with ⟨a, ha, rfl⟩
      have hmem : a.name ∈ alts.map NestSpec.name := List.mem_map_of_mem _ ha
      rw [show utilsToProbsExp v (alts.map NestSpec.name) =
        (alts.map NestSpec.name).map
          (fun x => (x, v x / ((alts.map NestSpec.name).map v).sum)) from rfl]
      rw [dfLookup_map_self hmem]
      rfl
    · rcases exists_of_mem_childCondPairsList h' with ⟨a, ha, ha'⟩
      have hnot : pr.1 ∉ alts.map NestSpec.name := by
        intro hmem
        rcases List.mem_map.mp hmem with ⟨b, hb, heq⟩
        exact tail_ne_root_of_nodup alts hnd_alts a ha b hb pr.1
          (childCondPairs_key_tail a pr ha') heq.symm
      rw [show utilsToProbsExp v (alts.map NestSpec.name) =
        (alts.map NestSpec.name).map
          (fun x => (x, v x / ((alts.map NestSpec.name).map v).sum)) from rfl]
      rw [dfLookup_map_of_not_mem hnot,
        hlist alts (fun a ha hnd => ih a ha hnd) hnd_alts pr h']
      rfl

/-- Recursive descent characterization: when `cp` agrees with the per-nest
conditional probabilities, `baseProbRec` assigns each leaf the accumulator
times the product of `cp` over the leaf's path with the root dropped. -/
theorem baseProbRec_entries (v cp : String → ℝ) :
    ∀ (t : NestSpec),
      (∀ pr ∈ childCondPairs t, cp pr.1 = v pr.1 / (pr.2.map v).sum) →
      ∀ acc, baseProbRec v t acc =
        (leavesWithAnc t []).map
          (fun la => (la.1, acc * ((la.2.drop 1).map cp).prod)) := by
  intro t
  induction t using NestSpec.inductionOn with
  | hleaf n =>
    intro _ acc
    simp [baseProbRec, leavesWithAnc]
  | hnode n c alts ih =>
    intro hp acc
    have hs : ((alts.map NestSpec.name).map v).sum =
        (alts.map (fun a => v a.name)).sum := by
      rw [List.map_map]
      rfl
    have hhead : ∀ a ∈ alts,
        cp a.name = v a.name / (alts.map (fun a => v a.name)).sum := by
      intro a ha
      have := hp (a.name, alts.map NestSpec.name)
        (List.mem_append.mpr (Or.inl (List.mem_map_of_mem _ ha)))
      rw [this]
      rw [hs]
    have hmem : ∀ a ∈ alts, ∀ pr ∈ childCondPairs a,
        cp pr.1 = v pr.1 / (pr.2.map v).sum := by
      intro a ha pr hpr
      exact hp pr (List.mem_append.mpr (Or.inr (mem_childCondPairsList_of_mem ha hpr)))
    have hlist : ∀ (ts : List NestSpec),
        (∀ a ∈ ts, (∀ pr ∈ childCondPairs a, cp pr.1 = v pr.1 / (pr.2.map v).sum) →
          ∀ acc', baseProbRec v a acc' =
            (leavesWithAnc a []).map
              (fun la => (la.1, acc' * ((la.2.drop 1).map cp).prod))) →
        (∀ a ∈ ts, ∀ pr ∈ childCondPairs a, cp pr.1 = v pr.1 / (pr.2.map v).sum) →
        (∀ a ∈ ts, cp a.name = v a.name / (alts.map (fun a => v a.name)).sum) →
        baseProbRecList v ts ((alts.map (fun a => v a.name)).sum) acc =
          (leavesWithAncList ts []).map
            (fun la => (la.1, acc * (la.2.map cp).prod)) := by
      intro ts
      induction ts with
      | nil => intro _ _ _; simp [baseProbRecList, leavesWithAncList]
      | cons a ts iht =>
        intro hIH hmem' hhead'
        show baseProbRec v a (acc * (v a.name / (alts.map (fun a => v a.name)).sum)) ++
            baseProbRecList v ts ((alts.map (fun a => v a.name)).sum) acc = _
        rw [iht (fun b hb => hIH b (List.mem_cons_of_mem _ hb))
            (fun b hb => hmem' b (List.mem_cons_of_mem _ hb))
            (fun b hb => hhead' b (List.mem_cons_of_mem _ hb))]
        rw [hIH a (List.mem_cons_self _ _) (hmem' a (List.mem_cons_self _ _)) _]
        show _ = (leavesWithAnc a [] ++ leavesWithAncList ts []).map
          (fun la => (la.1, acc * (la.2.map cp).prod))
        rw [List.map_append]
        congr 1
        refine List.map_congr_left ?_
        intro la hla
        rcases leavesWithAnc_head a la hla with ⟨rest, hrest⟩
        rw [hrest]
        simp only [List.drop_succ_cons, List.drop_zero, List.map_cons, List.prod_cons]
        rw [hhead' a (List.mem_cons_self _ _)]
        ring_nf
    show baseProbRecList v alts ((alts.map (fun a => v a.name)).sum) acc = _
    rw [hlist alts (fun a ha => ih a ha) hmem hhead]
    show _ = (leavesWithAncList alts ([] ++ [n])).map
      (fun la => (la.1, acc * ((la.2.drop 1).map cp).prod))
    rw [leavesWithAncList_shift alts ([] ++ [n]), List.map_map]
    refine List.map_congr_left ?_
    intro la _
    simp

/-- The loop of `compute_base_probabilities` builds, for each leaf, the
product of the nested probabilities over the leaf's ancestor path with the
root dropped. -/
theorem baseProbTable_eq (np : List (String × ℝ)) (spec : NestSpec)
    (hnodup : spec.names.Nodup) :
    baseProbTable np spec =
      (leavesWithAnc spec []).map
        (fun la => (la.1, ((la.2.drop 1).map (dfCol np)).prod)) := by
  unfold baseProbTable eachNest
  have hkeys : (((eachNestAux false 1 [] spec).filter
      (fun r => r.isLeafNode)).map Nest.name).Nodup := by
    have h1 : ((eachNestAux false 1 [] spec).filter
        (fun r => r.isLeafNode)).map Nest.name =
        (leavesWithAnc spec []).map Prod.fst := by
      rw [← leafRecords_eq spec 1 [], List.map_map]
      rfl
    rw [h1, leavesWithAnc_map_fst spec []]
    exact (leafNames_sublist spec).nodup hnodup
  refine (foldl_dfSet_map Nest.name
    (fun r => ((r.ancestors.drop 1).map (dfCol np)).prod)
    ((eachNestAux false 1 [] spec).filter (fun r => r.isLeafNode)) []
    hkeys (fun r _ => rfl)).trans ?_
  rw [List.nil_append]
  rw [← leafRecords_eq spec 1 [], List.map_map]
  rfl

/-- C2: with distinct nest names (pandas column labels) and spec alternative
columns drawn from the leaf names (the source's column-set assert), the
composition of `compute_nested_probabilities` and
`compute_base_probabilities` returns, in the spec's alternative column order,
exactly the recursive base probabilities: per leaf, the product of the
conditional probabilities — each child's exponentiated nested utility
normalized against its siblings, zero rows giving zero probabilities — along
the path from the leaf up to the root, the root itself excluded. -/
theorem compute_base_probabilities_correct (v : String → ℝ) (spec : NestSpec)
    (specCols : List String) (hnodup : spec.names.Nodup)
    (_hcols : ∀ c ∈ specCols, c ∈ leafNames spec) :
    computeBaseProbabilities (computeNestedProbabilities v spec) spec specCols =
      specCols.map (fun c => (c, dfCol (baseProbRec v spec 1) c)) := by
  have hcp : ∀ pr ∈ childCondPairs spec,
      dfCol (computeNestedProbabilities v spec) pr.1 =
        v pr.1 / (pr.2.map v).sum := by
    intro pr hpr
    unfold dfCol
    rw [computeNestedProbabilities_eq, dfLookup_condProbEntries v spec hnodup pr hpr]
    rfl
  have hbase : baseProbTable (computeNestedProbabilities v spec) spec =
      baseProbRec v spec 1 := by
    rw [baseProbTable_eq (computeNestedProbabilities v spec) spec hnodup]
    rw [baseProbRec_entries v (dfCol (computeNestedProbabilities v spec)) spec hcp 1]
    refine (List.map_congr_left ?_).symm
    intro la _
    rw [one_mul]
  unfold computeBaseProbabilities
  rw [hbase]

/-- Witness for `compute_base_probabilities_correct` at `exNestTree` with the
spec columns in a shuffled order. -/
theorem compute_base_probabilities_correct_witness :
    exNestTree.names.Nodup ∧
    (∀ c ∈ ["walk", "car", "carpool"], c ∈ leafNames exNestTree) ∧
    computeBaseProbabilities (computeNestedProbabilities exRaw exNestTree)
        exNestTree ["walk", "car", "carpool"] =
      ["walk", "car", "carpool"].map
        (fun c => (c, dfCol (baseProbRec exRaw exNestTree 1) c)) :=
  ⟨by decide, by decide,
    compute_base_probabilities_correct exRaw exNestTree ["walk", "car", "carpool"]
      (by decide) (by decide)⟩

/-! ### Theorems: Bad choosers in `eval_nl`
(`activitysim/core/simulate.py`: the tolerance check on base probabilities;
`logit.report_bad_choices` and `logit.make_choices` are modelled from the
spec, their module not being part of this source slice.) -/

theorem makeChoicesRow_ok_iff (r : List ℝ) (rand : ℝ) :
    (∃ c, makeChoicesRow r rand = .ok c) ↔ r.sum ≠ 0 := by
  unfold makeChoicesRow
  by_cases h : r.sum = 0
  · simp [h]
  · simp [h]

theorem makeChoices_ok_iff :
    ∀ (rows : List (List ℝ)) (rands : List ℝ), rands.length = rows.length →
      ((∃ cs, makeChoices rows rands = .ok cs) ↔ ∀ r ∈ rows, r.sum ≠ 0) := by
  intro rows
  induction rows with
  | nil => intro rands _; simp [makeChoices]
  | cons r rest ih =>
    intro rands hlen
    cases rands with
    | nil => simp at hlen
    | cons rand rrest =>
      simp only [List.length_cons, Nat.succ_inj] at hlen
      constructor
      · rintro ⟨cs, hcs⟩
        unfold makeChoices at hcs
        intro r' hr'
        rcases List.mem_cons.mp hr' with rfl | hr'
        · rcases hok : makeChoicesRow r' rand with e | c
          · rw [hok] at hcs; cases hcs
          · exact (makeChoicesRow_ok_iff r' rand).mp ⟨c, hok⟩
        · rcases hok : makeChoices rest rrest with e | cs'
          · rcases hok1 : makeChoicesRow r rand with e1 | c1 <;>
              rw [hok1, hok] at hcs <;> cases hcs
          · exact ((ih rrest hlen).mp ⟨cs', hok⟩) r' hr'
      · intro hall
        have h1 : r.sum ≠ 0 := hall r (List.mem_cons_self _ _)
        rcases (makeChoicesRow_ok_iff r rand).mpr h1 with ⟨c, hc⟩
        rcases (ih rrest hlen).mpr (fun r' hr' => hall r' (List.mem_cons_of_mem _ hr')) with
          ⟨cs, hcs⟩
        exact ⟨c :: cs, by unfold makeChoices; rw [hc, hcs]⟩

/-- C3: in the `eval_nl` choice stage, a chooser row is reported as a bad
chooser exactly when its base probabilities sum differs from 1 by more than
the tolerance 0.001; the report itself never aborts, and the stage fails
exactly when some row's probabilities cannot be normalized (sum to zero) at
the downstream choice draw — so a merely out-of-tolerance row does not by
itself abort the step. -/
theorem eval_nl_bad_choosers_nonfatal (rows : List (List ℝ)) (rands : List ℝ)
    (hlen : rands.length = rows.length) :
    (∀ i, i ∈ (evalNlChoiceStage rows rands).1 ↔
      i < rows.length ∧ |(rows.getD i []).sum - 1| > badProbThreshold) ∧
    ((∃ cs, (evalNlChoiceStage rows rands).2 = .ok cs) ↔
      ∀ r ∈ rows, r.sum ≠ 0) := by
  constructor
  · intro i
    unfold evalNlChoiceStage badChoosers
    rw [List.mem_filter, List.mem_range, decide_eq_true_eq]
  · exact makeChoices_ok_iff rows rands hlen

/-- Witness for `eval_nl_bad_choosers_nonfatal`: a row summing to 1.5
(reported as bad) alongside a good row. -/
theorem eval_nl_bad_choosers_nonfatal_witness :
    ([(0.25 : ℝ), 0.5] : List ℝ).length =
      ([[(1 : ℝ), 0.5], [1]] : List (List ℝ)).length ∧
    ((∀ i, i ∈ (evalNlChoiceStage [[(1 : ℝ), 0.5], [1]] [(0.25 : ℝ), 0.5]).1 ↔
        i < ([[(1 : ℝ), 0.5], [1]] : List (List ℝ)).length ∧
          |((([[(1 : ℝ), 0.5], [1]] : List (List ℝ)).getD i []).sum - 1)| >
            badProbThreshold) ∧
      ((∃ cs, (evalNlChoiceStage [[(1 : ℝ), 0.5], [1]] [(0.25 : ℝ), 0.5]).2 = .ok cs) ↔
        ∀ r ∈ ([[(1 : ℝ), 0.5], [1]] : List (List ℝ)), r.sum ≠ 0)) :=
  ⟨rfl, eval_nl_bad_choosers_nonfatal [[(1 : ℝ), 0.5], [1]] [(0.25 : ℝ), 0.5] rfl⟩

/-! ### Theorems: Spec loading (`activitysim/core/simulate.py`: `read_model_spec` and
`uniquify_spec_index`; the helper `assign.uniquify_key` is modelled from the
spec, its module not being part of this source slice.) -/

theorem length_foldl_append_strings :
    ∀ (l : List String) (init : String),
      init.length ≤ (l.foldl (fun a b => a ++ b) init).length ∧
      ∀ u ∈ l, u.length ≤ (l.foldl (fun a b => a ++ b) init).length := by
  intro l
  induction l with
  | nil => intro init; exact ⟨le_rfl, by simp⟩
  | cons x xs ih =>
    intro init
    have h := ih (init ++ x)
    have hx : (init ++ x).length = init.length + x.length := String.length_append _ _
    refine ⟨le_trans (by omega) h.1, ?_⟩
    intro u hu
    rcases List.mem_cons.mp hu with rfl | hu'
    · exact le_trans (by omega) h.1
    · exact h.2 u hu'

theorem uniquifyFallback_not_mem (used : List String) (key : String) :
    uniquifyFallback used key ∉ used := by
  intro hmem
  have h1 := (length_foldl_append_strings used "").2 _ hmem
  have h2 : (uniquifyFallback used key).length =
      (used.foldl (fun a b => a ++ b) "").length + key.length + 1 := by
    unfold uniquifyFallback
    rw [String.length_append, String.length_append]
    rfl
  rw [h2] at h1
  omega

theorem uniquifySearch_not_mem (used : List String) (key : String) :
    ∀ (fuel n : ℕ), uniquifySearch used key n fuel ∉ used := by
  intro fuel
  induction fuel with
  | zero => intro n; exact uniquifyFallback_not_mem used key
  | succ fuel ih =>
    intro n
    unfold uniquifySearch
    by_cases h : mkSuffixed key n ∈ used
    · rw [if_pos h]
      exact ih (n + 1)
    · rw [if_neg h]
      exact h

theorem uniquifyKey_not_mem (used : List String) (key : String) :
    uniquifyKey used key ∉ used := by
  unfold uniquifyKey
  by_cases h : key ∈ used
  · rw [if_pos h]
    exact uniquifySearch_not_mem used key (used.length + 1) 1
  · rw [if_neg h]
    exact h

theorem uniquifySpecIndex_foldl_nodup :
    ∀ (index : List String) (acc : List String), acc.Nodup →
      (index.foldl (fun acc k => acc ++ [uniquifyKey acc k]) acc).Nodup := by
  intro index
  induction index with
  | nil => intro acc h; exact h
  | cons k index ih =>
    intro acc h
    refine ih (acc ++ [uniquifyKey acc k]) ?_
    rw [List.nodup_append]
    exact ⟨h, List.nodup_singleton _, by
      intro x hx hx'
      rw [List.mem_singleton] at hx'
      exact uniquifyKey_not_mem acc k (hx' ▸ hx)⟩

/-- The rebuilt Expression index is duplicate-free. -/
theorem uniquifySpecIndex_nodup (index : List String) :
    (uniquifySpecIndex index).Nodup :=
  uniquifySpecIndex_foldl_nodup index [] List.nodup_nil

theorem uniquifySpecIndex_length (index : List String) :
    (uniquifySpecIndex index).length = index.length := by
  suffices h : ∀ (l : List String) (acc : List String),
      (l.foldl (fun acc k => acc ++ [uniquifyKey acc k]) acc).length =
        acc.length + l.length by
    simpa using h index []
  intro l
  induction l with
  | nil => intro acc; simp
  | cons k l ih =>
    intro acc
    rw [List.foldl_cons, ih]
    simp
    omega

/-- C5: every spec table returned by `read_model_spec` has pairwise-distinct
Expression index values (duplicates were disambiguated with a `# (n)`
suffix), and none of its rows is all-zero across the alternative columns
(all-zero rows are dropped). -/
theorem read_model_spec_unique_and_nonzero
    (rows : List (Option String × List (Option ℚ))) :
    ((readModelSpec rows).map Prod.fst).Nodup ∧
    ∀ r ∈ readModelSpec rows, ∃ cv ∈ r.2, cv ≠ 0 := by
  constructor
  · have hlen : (uniquifySpecIndex ((specDropNaFill rows).map Prod.fst)).length ≤
        ((specDropNaFill rows).map Prod.snd).length := by
      rw [uniquifySpecIndex_length]
      simp
    have hsub : List.Sublist
        ((readModelSpec rows).map Prod.fst)
        (((uniquifySpecIndex ((specDropNaFill rows).map Prod.fst)).zip
          ((specDropNaFill rows).map Prod.snd)).map Prod.fst) :=
      List.Sublist.map Prod.fst (List.filter_sublist _)
    rw [List.map_fst_zip _ _ hlen] at hsub
    exact hsub.nodup (uniquifySpecIndex_nodup _)
  · intro r hr
    have hpred := List.of_mem_filter hr
    simp only [Bool.not_eq_true'] at hpred
    have hne : ¬ ∀ c ∈ r.2, (c == 0) = true := by
      rw [← List.all_eq_true]
      simp [hpred]
    push_neg at hne
    rcases hne with ⟨c, hc, hcne⟩
    exact ⟨c, hc, by simpa using hcne⟩

end ActivitySim
